import Mathlib

/-!
Verification of the discrete restless-bandit code (discrete_RB.py): a shallow
embedding of the single-armed relaxation solver (solve_LP_Priority,
solve_whittles_policy), the priority policy (PriorityPolicy.get_actions), the
FTVA coupling policy (FTVAPolicy.get_actions, FTVAPolicy.virtual_step) and the
array helpers (sa_list_to_freq, states_from_state_fracs).

Modelling conventions, used throughout:
* numpy float arrays are modelled with exact rationals (ℚ);
* the external convex solver (cvxpy) is opaque: its outputs (the occupation
  measure y per subsidy grid point, and the dual values) are oracle arguments;
* random draws (np.random.binomial, np.random.choice) are oracle arguments:
  the 0/1 rounding coin is a ℕ argument, a random subset of size k drawn
  without replacement from a list l is an oracle function (called choose)
  constrained by chooseSpec;
* a 0/1 numpy action vector of length N is represented by the finite set of
  indices holding a 1 (Finset ℕ);
* python runtime errors (AssertionError, AttributeError, IndexError,
  NameError, KeyError, NotImplementedError) are modelled by Except PyErr.
-/

namespace DiscreteRB

/-- Python built-in int() applied to a real value: truncation toward zero. -/
def pyInt (q : ℚ) : ℤ := if 0 ≤ q then ⌊q⌋ else ⌈q⌉

/-- The python runtime errors that the embedded code can raise. -/
inductive PyErr where
  | assertionError : PyErr
  | attributeError : PyErr
  | indexError : PyErr
  | nameError : PyErr
  | keyError : PyErr
  | notImplementedError : PyErr
deriving DecidableEq, Repr

/-- Concatenation of the lists produced by f over a list (python list building
by repeated append, and numpy flattening). -/
def concatMap (f : α → List β) : List α → List β
  | [] => []
  | a :: l => f a ++ concatMap f l

/-- Specification of the np.random.choice(l, size, replace=False) oracle: on a
duplicate-free pool l and a size k within bounds, the drawn sample has size k,
is duplicate-free and is drawn from the pool. -/
def chooseSpec (choose : List ℕ → ℕ → List ℕ) : Prop :=
  ∀ l k, l.Nodup → k ≤ l.length →
    (choose l k).length = k ∧ (choose l k).Nodup ∧ ∀ x ∈ choose l k, x ∈ l

/-- A deterministic sample oracle (take the first k elements), used to
instantiate theorems at concrete inputs. -/
def takeChoose (l : List ℕ) (k : ℕ) : List ℕ := l.take k

theorem takeChoose_spec : chooseSpec takeChoose := by
  intro l k hnd hk
  refine ⟨?_, ?_, ?_⟩
  · simp [takeChoose, hk]
  · exact (List.take_sublist k l).nodup hnd
  · intro x hx
    exact (List.take_sublist k l).mem hx

theorem pyInt_toNat_of_nonneg {q : ℚ} (h : 0 ≤ q) : (pyInt q).toNat = ⌊q⌋₊ := by
  rw [pyInt, if_pos h, Int.floor_toNat]

/-- Sum of a constant-zero map is zero. -/
theorem sum_map_zero_nat (l : List α) : (l.map (fun _ => (0 : ℕ))).sum = 0 := by
  induction l with
  | nil => rfl
  | cons a l ih => simp [ih]

/-- Pointwise additivity of sums of maps. -/
theorem sum_map_add_nat (l : List α) (f g : α → ℕ) :
    (l.map (fun x => f x + g x)).sum = (l.map f).sum + (l.map g).sum := by
  induction l with
  | nil => rfl
  | cons a l ih => simp [ih]; omega

/-- In a list l, the indicator sum over s of [c = s] is the number of copies
of c in l. -/
theorem sum_map_ite_eq_count (c : ℕ) (l : List ℕ) :
    (l.map (fun s => if c = s then 1 else 0)).sum = l.count c := by
  induction l with
  | nil => rfl
  | cons a l ih =>
    by_cases h : c = a
    · subst h
      simp [List.count_cons, ih]
      omega
    · simp [List.count_cons, h, ih, Ne.symm h]

/-- Splitting the length of a list over a duplicate-free list of bucket keys
that covers every element: the bucket sizes sum to the length. -/
theorem sum_bucket_lengths (c : ℕ → ℕ) (prio : List ℕ) (hnd : prio.Nodup) :
    ∀ l : List ℕ, (∀ i ∈ l, c i ∈ prio) →
      (prio.map (fun s => (l.filter (fun i => c i = s)).length)).sum = l.length := by
  intro l
  induction l with
  | nil => intro _; simpa using sum_map_zero_nat prio
  | cons i l ih =>
    intro hmem
    have hstep : ∀ s : ℕ, ((i :: l).filter (fun j => c j = s)).length
        = (if c i = s then 1 else 0) + (l.filter (fun j => c j = s)).length := by
      intro s
      by_cases h : c i = s <;> simp [List.filter_cons, h] <;> omega
    have hmap : (prio.map (fun s => ((i :: l).filter (fun j => c j = s)).length)).sum
        = (prio.map (fun s => (if c i = s then 1 else 0) + (l.filter (fun j => c j = s)).length)).sum := by
      congr 1
      exact List.map_congr_left (fun s _ => hstep s)
    rw [hmap, sum_map_add_nat, sum_map_ite_eq_count,
      ih (fun j hj => hmem j (List.mem_cons_of_mem i hj)),
      List.count_eq_one_of_mem hnd (hmem i (List.mem_cons_self i l))]
    simp [Nat.add_comm]

/-! ## The shared greedy budget-filling loop

Both PriorityPolicy.get_actions and the level-based branches of
FTVAPolicy.get_actions run the same python loop: walk a list of disjoint
index pools from high priority to low priority; if the remaining budget covers
a pool, activate all of it; otherwise activate a random subset of the pool of
exactly the remaining size and stop. -/

/-- The greedy budget-filling loop. Returns the set of activated indices and
the remaining budget when the loop ends. -/
def greedyFill (choose : List ℕ → ℕ → List ℕ) :
    List (List ℕ) → Finset ℕ → ℕ → Finset ℕ × ℕ
  | [], acts, rem => (acts, rem)
  | idxs :: rest, acts, rem =>
    if idxs.length ≤ rem then
      greedyFill choose rest (acts ∪ idxs.toFinset) (rem - idxs.length)
    else
      (acts ∪ (choose idxs rem).toFinset, 0)

theorem greedyFill_snd (choose : List ℕ → ℕ → List ℕ) :
    ∀ (levels : List (List ℕ)) (acts : Finset ℕ) (rem : ℕ),
      (greedyFill choose levels acts rem).2 = rem - (levels.map List.length).sum := by
  intro levels
  induction levels with
  | nil => intro acts rem; simp [greedyFill]
  | cons idxs rest ih =>
    intro acts rem
    by_cases h : idxs.length ≤ rem
    · rw [greedyFill, if_pos h, ih]
      simp
      omega
    · rw [greedyFill, if_neg h]
      simp at h ⊢
      omega

theorem greedyFill_init_subset (choose : List ℕ → ℕ → List ℕ) :
    ∀ (levels : List (List ℕ)) (acts : Finset ℕ) (rem : ℕ),
      acts ⊆ (greedyFill choose levels acts rem).1 := by
  intro levels
  induction levels with
  | nil => intro acts rem; simp [greedyFill]
  | cons idxs rest ih =>
    intro acts rem
    by_cases h : idxs.length ≤ rem
    · rw [greedyFill, if_pos h]
      exact fun x hx => ih _ _ (Finset.mem_union_left _ hx)
    · rw [greedyFill, if_neg h]
      exact fun x hx => Finset.mem_union_left _ hx

theorem greedyFill_card (choose : List ℕ → ℕ → List ℕ) (hch : chooseSpec choose) :
    ∀ (levels : List (List ℕ)) (acts : Finset ℕ) (rem : ℕ),
      (∀ l ∈ levels, l.Nodup) →
      List.Pairwise (fun l1 l2 => ∀ x ∈ l1, x ∉ l2) levels →
      (∀ l ∈ levels, ∀ x ∈ l, x ∉ acts) →
      (greedyFill choose levels acts rem).1.card
        = acts.card + min rem ((levels.map List.length).sum) := by
  intro levels
  induction levels with
  | nil => intro acts rem _ _ _; simp [greedyFill]
  | cons idxs rest ih =>
    intro acts rem hnd hpw hdisj
    have hndI : idxs.Nodup := hnd idxs (List.mem_cons_self _ _)
    by_cases h : idxs.length ≤ rem
    · rw [greedyFill, if_pos h]
      have hcard : (acts ∪ idxs.toFinset).card = acts.card + idxs.length := by
        rw [Finset.card_union_of_disjoint, List.toFinset_card_of_nodup hndI]
        rw [Finset.disjoint_right]
        intro x hx
        exact hdisj idxs (List.mem_cons_self _ _) x (List.mem_toFinset.mp hx)
      rw [ih (acts ∪ idxs.toFinset) (rem - idxs.length)
          (fun l hl => hnd l (List.mem_cons_of_mem _ hl))
          (List.Pairwise.of_cons hpw)
          ?_, hcard]
      · simp
        omega
      · intro l hl x hx hxu
        rcases Finset.mem_union.mp hxu with hxa | hxi
        · exact hdisj l (List.mem_cons_of_mem _ hl) x hx hxa
        · exact (List.rel_of_pairwise_cons hpw hl) x (List.mem_toFinset.mp hxi) hx
    · rw [greedyFill, if_neg h]
      have hrem : rem ≤ idxs.length := Nat.le_of_lt (Nat.lt_of_not_le h)
      obtain ⟨hlen, hndc, hsub⟩ := hch idxs rem hndI hrem
      have hcard : (acts ∪ (choose idxs rem).toFinset).card = acts.card + rem := by
        rw [Finset.card_union_of_disjoint, List.toFinset_card_of_nodup hndc, hlen]
        rw [Finset.disjoint_right]
        intro x hx
        exact hdisj idxs (List.mem_cons_self _ _) x (hsub x (List.mem_toFinset.mp hx))
      rw [hcard]
      simp
      omega

/-- Structure of the greedy fill: there is a cut level k such that every level
before k is fully activated and no element of a level after k is activated. -/
theorem greedyFill_cut (choose : List ℕ → ℕ → List ℕ) (hch : chooseSpec choose) :
    ∀ (levels : List (List ℕ)) (acts : Finset ℕ) (rem : ℕ),
      (∀ l ∈ levels, l.Nodup) →
      List.Pairwise (fun l1 l2 => ∀ x ∈ l1, x ∉ l2) levels →
      (∀ l ∈ levels, ∀ x ∈ l, x ∉ acts) →
      ∃ k ≤ levels.length,
        (∀ j, j < k → ∀ x ∈ levels.getD j [], x ∈ (greedyFill choose levels acts rem).1) ∧
        (∀ j, k < j → j < levels.length →
          ∀ x ∈ levels.getD j [], x ∉ (greedyFill choose levels acts rem).1) := by
  intro levels
  induction levels with
  | nil =>
    intro acts rem _ _ _
    exact ⟨0, Nat.le_refl 0, fun j hj => absurd hj (Nat.not_lt_zero j),
      fun j _ hj => absurd hj (Nat.not_lt_zero j)⟩
  | cons idxs rest ih =>
    intro acts rem hnd hpw hdisj
    have hndI : idxs.Nodup := hnd idxs (List.mem_cons_self _ _)
    by_cases h : idxs.length ≤ rem
    · rw [greedyFill, if_pos h]
      obtain ⟨k, hk, hfull, hnone⟩ := ih (acts ∪ idxs.toFinset) (rem - idxs.length)
        (fun l hl => hnd l (List.mem_cons_of_mem _ hl))
        (List.Pairwise.of_cons hpw)
        (by
          intro l hl x hx hxu
          rcases Finset.mem_union.mp hxu with hxa | hxi
          · exact hdisj l (List.mem_cons_of_mem _ hl) x hx hxa
          · exact (List.rel_of_pairwise_cons hpw hl) x (List.mem_toFinset.mp hxi) hx)
      refine ⟨k + 1, by simpa using Nat.succ_le_succ hk, ?_, ?_⟩
      · intro j hj x hx
        match j with
        | 0 =>
          exact greedyFill_init_subset choose rest _ _
            (Finset.mem_union_right _ (List.mem_toFinset.mpr hx))
        | j + 1 =>
          exact hfull j (Nat.lt_of_succ_lt_succ hj) x hx
      · intro j hj hjlen x hx
        match j with
        | j + 1 =>
          exact hnone j (Nat.lt_of_succ_lt_succ hj) (by simpa using Nat.lt_of_succ_lt_succ hjlen) x hx
    · rw [greedyFill, if_neg h]
      have hrem : rem ≤ idxs.length := Nat.le_of_lt (Nat.lt_of_not_le h)
      obtain ⟨hlen, hndc, hsub⟩ := hch idxs rem hndI hrem
      refine ⟨0, Nat.zero_le _, fun j hj => absurd hj (Nat.not_lt_zero j), ?_⟩
      intro j hj hjlen x hx hxm
      match j with
      | j + 1 =>
        have hxrest : x ∈ rest.getD j [] := hx
        have hmemrest : rest.getD j [] ∈ rest := by
          have hjr : j < rest.length := by simpa using Nat.lt_of_succ_lt_succ hjlen
          rw [List.getD_eq_getElem _ _ hjr]
          exact List.getElem_mem hjr
        rcases Finset.mem_union.mp hxm with hxa | hxc
        · exact hdisj _ (List.mem_cons_of_mem _ hmemrest) x hxrest hxa
        · exact (List.rel_of_pairwise_cons hpw hmemrest) x
            (hsub x (List.mem_toFinset.mp hxc)) hxrest

/-! ## PriorityPolicy -/

/-- The randomized-rounding budget: int(N * act_frac) plus the Bernoulli coin
drawn by np.random.binomial(1, N * act_frac - int(N * act_frac)). -/
theorem roundedBudget_le_N (N : ℕ) (f : ℚ) (coin : ℕ) (hf0 : 0 < f) (hf1 : f < 1)
    (hcoin : coin ≤ 1)
    (hc1 : coin = 1 → ((pyInt ((N : ℚ) * f)).toNat : ℚ) < (N : ℚ) * f) :
    (pyInt ((N : ℚ) * f)).toNat + coin ≤ N := by
  have hq : (0 : ℚ) ≤ (N : ℚ) * f := mul_nonneg (Nat.cast_nonneg N) (le_of_lt hf0)
  have hle : (N : ℚ) * f ≤ (N : ℚ) := by
    calc (N : ℚ) * f ≤ (N : ℚ) * 1 := by
          exact mul_le_mul_of_nonneg_left (le_of_lt hf1) (Nat.cast_nonneg N)
      _ = (N : ℚ) := mul_one _
  rw [pyInt_toNat_of_nonneg hq]
  interval_cases coin
  · have : ⌊(N : ℚ) * f⌋₊ ≤ ⌊(N : ℚ)⌋₊ := Nat.floor_mono hle
    simpa using this
  · have hstrict : (⌊(N : ℚ) * f⌋₊ : ℚ) < (N : ℚ) := by
      calc (⌊(N : ℚ) * f⌋₊ : ℚ) < (N : ℚ) * f := by
            have := hc1 rfl
            rwa [pyInt_toNat_of_nonneg hq] at this
        _ ≤ (N : ℚ) := hle
    have : ⌊(N : ℚ) * f⌋₊ < N := Nat.cast_lt.mp hstrict
    omega

/-- Indices of the arms currently in state s (np.where(cur_states == state));
arm i has state cur_states[i], the array has length N. -/
def s2indices (cur_states : List ℕ) (N s : ℕ) : List ℕ :=
  (List.range N).filter (fun i => cur_states.getD i 0 = s)

theorem s2indices_nodup (cur_states : List ℕ) (N s : ℕ) :
    (s2indices cur_states N s).Nodup :=
  List.Nodup.filter _ (List.nodup_range N)

theorem mem_s2indices {cur_states : List ℕ} {N s i : ℕ} :
    i ∈ s2indices cur_states N s ↔ i < N ∧ cur_states.getD i 0 = s := by
  simp [s2indices, List.mem_filter]

/-- PriorityPolicy.get_actions: walk the priority list from high priority to
low; fully activate every arm of a state that fits into the remaining budget,
otherwise activate a random subset of that state of exactly the remaining
size and stop; assert that the budget is exhausted. The s2indices dict is
keyed by the states 0..S-1, so a priority-list entry outside that range is a
KeyError. Returns the set of activated arm indices. -/
def PriorityPolicy_get_actions (choose : List ℕ → ℕ → List ℕ) (sspa_size : ℕ)
    (priority_list : List ℕ) (N : ℕ) (act_frac : ℚ) (coin : ℕ)
    (cur_states : List ℕ) : Except PyErr (Finset ℕ) :=
  if ∀ s ∈ priority_list, s < sspa_size then
    let rem_budget := (pyInt ((N : ℚ) * act_frac)).toNat + coin
    let res := greedyFill choose (priority_list.map (s2indices cur_states N)) ∅ rem_budget
    if res.2 = 0 then Except.ok res.1 else Except.error PyErr.assertionError
  else Except.error PyErr.keyError

theorem s2indices_levels_nodup (cur_states : List ℕ) (N : ℕ) (prio : List ℕ) :
    ∀ l ∈ prio.map (s2indices cur_states N), l.Nodup := by
  intro l hl
  obtain ⟨s, _, rfl⟩ := List.mem_map.mp hl
  exact s2indices_nodup cur_states N s

theorem s2indices_levels_pairwise (cur_states : List ℕ) (N : ℕ) (prio : List ℕ)
    (hnd : prio.Nodup) :
    List.Pairwise (fun l1 l2 => ∀ x ∈ l1, x ∉ l2) (prio.map (s2indices cur_states N)) := by
  rw [List.pairwise_map]
  refine hnd.imp ?_
  intro s t hst x hxs hxt
  exact hst ((mem_s2indices.mp hxs).2 ▸ (mem_s2indices.mp hxt).2)

theorem s2indices_levels_sum (cur_states : List ℕ) (N : ℕ) (prio : List ℕ)
    (hnd : prio.Nodup) (hlen : cur_states.length = N)
    (hmem : ∀ s ∈ cur_states, s ∈ prio) :
    ((prio.map (s2indices cur_states N)).map List.length).sum = N := by
  rw [List.map_map]
  have hcov : ∀ i ∈ List.range N, cur_states.getD i 0 ∈ prio := by
    intro i hi
    have hiN : i < cur_states.length := hlen ▸ List.mem_range.mp hi
    rw [List.getD_eq_getElem _ _ hiN]
    exact hmem _ (List.getElem_mem hiN)
  calc (List.map (List.length ∘ s2indices cur_states N) prio).sum
      = (List.map (fun s => ((List.range N).filter
          (fun i => cur_states.getD i 0 = s)).length) prio).sum := rfl
    _ = (List.range N).length :=
        sum_bucket_lengths (fun i => cur_states.getD i 0) prio hnd (List.range N) hcov
    _ = N := List.length_range N

/-- C3: on any current-state vector of length N whose states all appear in the
(duplicate-free) priority list, PriorityPolicy.get_actions succeeds and the
number of activated arms is exactly int(N*act_frac) plus the 0/1 rounding
coin (floor of the fractional budget, or its ceiling when the coin is 1) —
never more, never less; this holds for every rounding-coin outcome and every
random-subset draw. -/
theorem C3_priority_policy_budget (choose : List ℕ → ℕ → List ℕ)
    (sspa_size N coin : ℕ) (priority_list cur_states : List ℕ) (act_frac : ℚ)
    (hch : chooseSpec choose)
    (hlen : cur_states.length = N)
    (hnd : priority_list.Nodup)
    (hS : ∀ s ∈ priority_list, s < sspa_size)
    (hmem : ∀ s ∈ cur_states, s ∈ priority_list)
    (hf0 : 0 < act_frac) (hf1 : act_frac < 1) (hcoin : coin ≤ 1)
    (hc1 : coin = 1 → ((pyInt ((N : ℚ) * act_frac)).toNat : ℚ) < (N : ℚ) * act_frac) :
    ∃ acts : Finset ℕ,
      PriorityPolicy_get_actions choose sspa_size priority_list N act_frac coin cur_states
        = Except.ok acts
      ∧ acts.card = (pyInt ((N : ℚ) * act_frac)).toNat + coin := by
  have hbud : (pyInt ((N : ℚ) * act_frac)).toNat + coin ≤ N :=
    roundedBudget_le_N N act_frac coin hf0 hf1 hcoin hc1
  have hndlv := s2indices_levels_nodup cur_states N priority_list
  have hpw := s2indices_levels_pairwise cur_states N priority_list hnd
  have hsum := s2indices_levels_sum cur_states N priority_list hnd hlen hmem
  have hsnd : (greedyFill choose (priority_list.map (s2indices cur_states N)) ∅
      ((pyInt ((N : ℚ) * act_frac)).toNat + coin)).2 = 0 := by
    rw [greedyFill_snd, hsum]
    omega
  have hcard : (greedyFill choose (priority_list.map (s2indices cur_states N)) ∅
      ((pyInt ((N : ℚ) * act_frac)).toNat + coin)).1.card
      = (pyInt ((N : ℚ) * act_frac)).toNat + coin := by
    rw [greedyFill_card choose hch _ ∅ _ hndlv hpw (by simp), Finset.card_empty, hsum]
    omega
  refine ⟨_, ?_, hcard⟩
  simp only [PriorityPolicy_get_actions, if_pos hS, hsnd, ite_true]

theorem C3_priority_policy_budget_witness :
    ([0, 1, 0] : List ℕ).length = 3 ∧ (0 : ℚ) < 1/2 ∧ (1/2 : ℚ) < 1 ∧
    ∃ acts : Finset ℕ,
      PriorityPolicy_get_actions takeChoose 2 [1, 0] 3 (1/2) 0 [0, 1, 0]
        = Except.ok acts
      ∧ acts.card = (pyInt ((3 : ℚ) * (1/2))).toNat + 0 :=
  ⟨rfl, by norm_num, by norm_num,
    C3_priority_policy_budget takeChoose 2 3 0 [1, 0] [0, 1, 0] (1/2)
      takeChoose_spec rfl (by decide) (by decide) (by decide)
      (by norm_num) (by norm_num) (by decide) (fun h => absurd h (by decide))⟩

/-! ## FTVAPolicy -/

/-- Partition of the length of a list over four mutually exclusive, jointly
exhaustive boolean masks. -/
theorem length_filter_partition_four (p1 p2 p3 p4 : ℕ → Bool) :
    ∀ l : List ℕ,
      (∀ x ∈ l, (cond (p1 x) 1 0) + (cond (p2 x) 1 0)
        + (cond (p3 x) 1 0) + (cond (p4 x) 1 0) = 1) →
      (l.filter p1).length + (l.filter p2).length + (l.filter p3).length
        + (l.filter p4).length = l.length := by
  intro l
  induction l with
  | nil => intro _; simp
  | cons a l ih =>
    intro h
    have ha := h a (List.mem_cons_self a l)
    have hl := ih (fun x hx => h x (List.mem_cons_of_mem a hx))
    cases h1 : p1 a <;> cases h2 : p2 a <;> cases h3 : p3 a <;> cases h4 : p4 a <;>
      rw [h1, h2, h3, h4] at ha <;>
      simp only [cond_true, cond_false] at ha <;>
      simp [List.filter_cons, h1, h2, h3, h4] <;> omega

/-- Disjointness of two filters with mutually exclusive masks. -/
theorem filters_disjoint (p q : ℕ → Bool) (l : List ℕ)
    (h : ∀ x ∈ l, ¬(p x = true ∧ q x = true)) :
    ∀ x ∈ l.filter p, x ∉ l.filter q := by
  intro x hx hxq
  exact h x (List.mem_of_mem_filter hx)
    ⟨(List.mem_filter.mp hx).2, (List.mem_filter.mp hxq).2⟩

/-- Indicator of a good arm: 1 when the current real state of arm i equals its
virtual state (entry i of the good_arm_mask numpy array). -/
def goodInd (cur_states virtual_states : List ℕ) (i : ℕ) : ℕ :=
  if cur_states.getD i 0 = virtual_states.getD i 0 then 1 else 0

theorem goodInd_le_one (cur_states virtual_states : List ℕ) (i : ℕ) :
    goodInd cur_states virtual_states i ≤ 1 := by
  rw [goodInd]
  split <;> omega

theorem goodInd_eq_zero_or_one (cur_states virtual_states : List ℕ) (i : ℕ) :
    goodInd cur_states virtual_states i = 0 ∨ goodInd cur_states virtual_states i = 1 := by
  rw [goodInd]
  split <;> omega

/-- The four priority levels of the default goodness tie-break of
FTVAPolicy.get_actions, as index pools: (virtual action 1, good),
(virtual action 1, bad), (virtual action 0, bad), (virtual action 0, good).
The source builds each mask by elementwise products of the virtual-action
array (entries 0/1) and the good_arm_mask, and np.where selects the indices
with a nonzero mask entry. -/
def goodnessLevels (cur_states virtual_states virtual_actions : List ℕ) (N : ℕ) :
    List (List ℕ) :=
  [(List.range N).filter (fun i => virtual_actions.getD i 0
      * goodInd cur_states virtual_states i ≠ 0),
   (List.range N).filter (fun i => virtual_actions.getD i 0
      * (1 - goodInd cur_states virtual_states i) ≠ 0),
   (List.range N).filter (fun i => (1 - virtual_actions.getD i 0)
      * (1 - goodInd cur_states virtual_states i) ≠ 0),
   (List.range N).filter (fun i => (1 - virtual_actions.getD i 0)
      * goodInd cur_states virtual_states i ≠ 0)]

theorem goodnessLevels_length (cur_states virtual_states virtual_actions : List ℕ)
    (N : ℕ) : (goodnessLevels cur_states virtual_states virtual_actions N).length = 4 :=
  rfl

theorem goodnessLevels_nodup (cur_states virtual_states virtual_actions : List ℕ)
    (N : ℕ) :
    ∀ l ∈ goodnessLevels cur_states virtual_states virtual_actions N, l.Nodup := by
  intro l hl
  rw [goodnessLevels] at hl
  simp only [List.mem_cons, List.not_mem_nil, or_false] at hl
  rcases hl with rfl | rfl | rfl | rfl <;>
    exact List.Nodup.filter _ (List.nodup_range N)

theorem goodnessLevels_sum (cur_states virtual_states virtual_actions : List ℕ)
    (N : ℕ) (hva : ∀ i, i < N → virtual_actions.getD i 0 ≤ 1) :
    ((goodnessLevels cur_states virtual_states virtual_actions N).map List.length).sum
      = N := by
  have h4 := length_filter_partition_four
    (fun i => virtual_actions.getD i 0 * goodInd cur_states virtual_states i ≠ 0)
    (fun i => virtual_actions.getD i 0 * (1 - goodInd cur_states virtual_states i) ≠ 0)
    (fun i => (1 - virtual_actions.getD i 0) * (1 - goodInd cur_states virtual_states i) ≠ 0)
    (fun i => (1 - virtual_actions.getD i 0) * goodInd cur_states virtual_states i ≠ 0)
    (List.range N) ?_
  · rw [List.length_range] at h4
    simp only [goodnessLevels, List.map_cons, List.map_nil, List.sum_cons, List.sum_nil]
    omega
  · intro x hx
    have hvx := hva x (List.mem_range.mp hx)
    rcases Nat.le_one_iff_eq_zero_or_eq_one.mp hvx with hv | hv <;>
      rcases goodInd_eq_zero_or_one cur_states virtual_states x with hg | hg <;>
      simp only [hv, hg] <;> decide

theorem goodnessLevels_pairwise (cur_states virtual_states virtual_actions : List ℕ)
    (N : ℕ) (hva : ∀ i, i < N → virtual_actions.getD i 0 ≤ 1) :
    List.Pairwise (fun l1 l2 => ∀ x ∈ l1, x ∉ l2)
      (goodnessLevels cur_states virtual_states virtual_actions N) := by
  have hside : ∀ x ∈ List.range N,
      virtual_actions.getD x 0 ≤ 1 ∧ goodInd cur_states virtual_states x ≤ 1 := by
    intro x hx
    exact ⟨hva x (List.mem_range.mp hx), goodInd_le_one cur_states virtual_states x⟩
  have hd : ∀ f1 g1 f2 g2 : ℕ → ℕ,
      (∀ x ∈ List.range N, f1 x * g1 x ≠ 0 → f2 x * g2 x ≠ 0 → False) →
      ∀ x ∈ (List.range N).filter (fun i => f1 i * g1 i ≠ 0),
        x ∉ (List.range N).filter (fun i => f2 i * g2 i ≠ 0) := by
    intro f1 g1 f2 g2 h
    refine filters_disjoint _ _ _ ?_
    intro x hx
    simp only [decide_eq_true_eq]
    rintro ⟨u1, u2⟩
    exact h x hx u1 u2
  rw [goodnessLevels]
  refine List.Pairwise.cons ?_ (List.Pairwise.cons ?_ (List.Pairwise.cons ?_
    (List.Pairwise.cons ?_ List.Pairwise.nil)))
  · intro l hl
    simp only [List.mem_cons, List.not_mem_nil, or_false] at hl
    rcases hl with rfl | rfl | rfl
    · refine hd _ _ _ _ ?_
      intro x hx u1 u2
      obtain ⟨ha, hg⟩ := hside x hx
      rw [Nat.mul_ne_zero_iff] at u1 u2
      omega
    · refine hd _ _ _ _ ?_
      intro x hx u1 u2
      obtain ⟨ha, hg⟩ := hside x hx
      rw [Nat.mul_ne_zero_iff] at u1 u2
      omega
    · refine hd _ _ _ _ ?_
      intro x hx u1 u2
      obtain ⟨ha, hg⟩ := hside x hx
      rw [Nat.mul_ne_zero_iff] at u1 u2
      omega
  · intro l hl
    simp only [List.mem_cons, List.not_mem_nil, or_false] at hl
    rcases hl with rfl | rfl
    · refine hd _ _ _ _ ?_
      intro x hx u1 u2
      obtain ⟨ha, hg⟩ := hside x hx
      rw [Nat.mul_ne_zero_iff] at u1 u2
      omega
    · refine hd _ _ _ _ ?_
      intro x hx u1 u2
      obtain ⟨ha, hg⟩ := hside x hx
      rw [Nat.mul_ne_zero_iff] at u1 u2
      omega
  · intro l hl
    simp only [List.mem_cons, List.not_mem_nil, or_false] at hl
    rcases hl with rfl
    refine hd _ _ _ _ ?_
    intro x hx u1 u2
    obtain ⟨ha, hg⟩ := hside x hx
    rw [Nat.mul_ne_zero_iff] at u1 u2
    omega
  · intro l hl
    simp only [List.not_mem_nil] at hl

/-- The nested priority levels of the priority and goodness-priority
tie-breaks: every rough class (a 0/1 mask over arms) is refined by the
supplied state priority list; np.where selects the arms of the rough class
whose virtual state equals the current priority-list entry. -/
def roughPriorityLevels (virtual_states : List ℕ) (N : ℕ)
    (roughs : List (ℕ → ℕ)) (tb_param : List ℕ) : List (List ℕ) :=
  concatMap (fun rough => tb_param.map (fun p =>
    (List.range N).filter (fun i =>
      rough i * (if virtual_states.getD i 0 = p then 1 else 0) ≠ 0))) roughs

/-- FTVAPolicy.get_actions. Oracle arguments: choose (np.random.choice
without replacement), coin (the randomized-rounding Bernoulli draw),
virtual_actions (the per-arm actions sampled from the randomized policy at
the virtual states). The result pairs the Except outcome (activated index
set and virtual-action vector, or the python error raised) with the
virtual_states field after the call; the method never writes
self.virtual_states, so that field is returned unchanged. -/
def FTVAPolicy_get_actions (choose : List ℕ → ℕ → List ℕ) (N : ℕ) (act_frac : ℚ)
    (coin : ℕ) (virtual_states virtual_actions cur_states : List ℕ)
    (tb_rule : Option String) (tb_param : Option (List ℕ)) :
    Except PyErr (Finset ℕ × List ℕ) × List ℕ :=
  let budget := (pyInt ((N : ℚ) * act_frac)).toNat + coin
  if tb_rule = none ∨ tb_rule = some "goodness" then
    (Except.ok ((greedyFill choose
        (goodnessLevels cur_states virtual_states virtual_actions N) ∅ budget).1,
      virtual_actions), virtual_states)
  else if tb_rule = some "naive" then
    let actions0 := ((List.range N).filter (fun i => virtual_actions.getD i 0 = 1)).toFinset
    let num_requests := ((List.range N).map (fun i => virtual_actions.getD i 0)).sum
    if budget < num_requests then
      (Except.ok (actions0 \ (choose ((List.range N).filter
          (fun i => virtual_actions.getD i 0 = 1)) (num_requests - budget)).toFinset,
        virtual_actions), virtual_states)
    else
      (Except.ok (actions0 ∪ (choose ((List.range N).filter
          (fun i => virtual_actions.getD i 0 = 0)) (budget - num_requests)).toFinset,
        virtual_actions), virtual_states)
  else if tb_rule = some "priority" then
    match tb_param with
    | none => (Except.error PyErr.assertionError, virtual_states)
    | some tbp =>
      (Except.ok ((greedyFill choose
          (roughPriorityLevels virtual_states N
            [fun i => virtual_actions.getD i 0, fun i => 1 - virtual_actions.getD i 0]
            tbp) ∅ budget).1,
        virtual_actions), virtual_states)
  else if tb_rule = some "goodness-priority" then
    match tb_param with
    | none => (Except.error PyErr.assertionError, virtual_states)
    | some tbp =>
      (Except.ok ((greedyFill choose
          (roughPriorityLevels virtual_states N
            [fun i => virtual_actions.getD i 0 * goodInd cur_states virtual_states i,
             fun i => virtual_actions.getD i 0 * (1 - goodInd cur_states virtual_states i),
             fun i => (1 - virtual_actions.getD i 0) * (1 - goodInd cur_states virtual_states i),
             fun i => (1 - virtual_actions.getD i 0) * goodInd cur_states virtual_states i]
            tbp) ∅ budget).1,
        virtual_actions), virtual_states)
  else
    (Except.error PyErr.notImplementedError, virtual_states)

/-- C4: under the default goodness tie-break, FTVAPolicy.get_actions succeeds,
the number of activated arms equals the rounded integer budget, and whenever
any arm of a level is activated, every arm of every strictly higher level
(smaller level index in the order (active,good) > (active,bad) >
(passive,bad) > (passive,good)) is activated — the levels are filled greedily
until the budget is exhausted. -/
theorem C4_goodness_tiebreak (choose : List ℕ → ℕ → List ℕ) (N coin : ℕ)
    (act_frac : ℚ) (cur_states virtual_states virtual_actions : List ℕ)
    (tb_param : Option (List ℕ))
    (hch : chooseSpec choose)
    (hva : ∀ i, i < N → virtual_actions.getD i 0 ≤ 1)
    (hf0 : 0 < act_frac) (hf1 : act_frac < 1) (hcoin : coin ≤ 1)
    (hc1 : coin = 1 → ((pyInt ((N : ℚ) * act_frac)).toNat : ℚ) < (N : ℚ) * act_frac) :
    ∃ acts : Finset ℕ,
      FTVAPolicy_get_actions choose N act_frac coin virtual_states virtual_actions
          cur_states none tb_param
        = (Except.ok (acts, virtual_actions), virtual_states)
      ∧ acts.card = (pyInt ((N : ℚ) * act_frac)).toNat + coin
      ∧ (∀ j1 j2, j1 < j2 → j2 < 4 →
          (∃ x ∈ (goodnessLevels cur_states virtual_states virtual_actions N).getD j2 [],
            x ∈ acts) →
          ∀ y ∈ (goodnessLevels cur_states virtual_states virtual_actions N).getD j1 [],
            y ∈ acts) := by
  have hbud : (pyInt ((N : ℚ) * act_frac)).toNat + coin ≤ N :=
    roundedBudget_le_N N act_frac coin hf0 hf1 hcoin hc1
  have hnd := goodnessLevels_nodup cur_states virtual_states virtual_actions N
  have hpw := goodnessLevels_pairwise cur_states virtual_states virtual_actions N hva
  have hsum := goodnessLevels_sum cur_states virtual_states virtual_actions N hva
  refine ⟨(greedyFill choose
      (goodnessLevels cur_states virtual_states virtual_actions N) ∅
      ((pyInt ((N : ℚ) * act_frac)).toNat + coin)).1, ?_, ?_, ?_⟩
  · simp only [FTVAPolicy_get_actions]
    rw [if_pos (Or.inl trivial)]
  · rw [greedyFill_card choose hch _ ∅ _ hnd hpw (by simp), Finset.card_empty, hsum]
    omega
  · obtain ⟨k, hk, hfull, hnone⟩ := greedyFill_cut choose hch
      (goodnessLevels cur_states virtual_states virtual_actions N) ∅
      ((pyInt ((N : ℚ) * act_frac)).toNat + coin) hnd hpw (by simp)
    intro j1 j2 h12 hj2 hex y hy
    obtain ⟨x, hxl, hxa⟩ := hex
    by_cases hkj2 : k < j2
    · exact absurd hxa (hnone j2 hkj2 (by rw [goodnessLevels_length]; exact hj2) x hxl)
    · exact hfull j1 (by omega) y hy

theorem C4_goodness_tiebreak_witness :
    (∀ i, i < 1 → ([1] : List ℕ).getD i 0 ≤ 1) ∧ (0 : ℚ) < 1/2 ∧ (1/2 : ℚ) < 1 ∧
    ∃ acts : Finset ℕ,
      FTVAPolicy_get_actions takeChoose 1 (1/2) 0 [0] [1] [0] none none
        = (Except.ok (acts, [1]), [0])
      ∧ acts.card = (pyInt ((1 : ℚ) * (1/2))).toNat + 0
      ∧ (∀ j1 j2, j1 < j2 → j2 < 4 →
          (∃ x ∈ (goodnessLevels [0] [0] [1] 1).getD j2 [], x ∈ acts) →
          ∀ y ∈ (goodnessLevels [0] [0] [1] 1).getD j1 [], y ∈ acts) :=
  ⟨by decide, by norm_num, by norm_num,
    C4_goodness_tiebreak takeChoose 1 0 (1/2) [0] [0] [1] none
      takeChoose_spec (by decide) (by norm_num) (by norm_num) (by decide)
      (fun h => absurd h (by decide))⟩

/-- C5: any tie-break rule other than None, goodness, naive, priority and
goodness-priority reaches the final else branch of FTVAPolicy.get_actions and
raises NotImplementedError; the virtual_states field is unchanged by the
failed call. -/
theorem C5_unknown_tb_rule (choose : List ℕ → ℕ → List ℕ) (N coin : ℕ)
    (act_frac : ℚ) (virtual_states virtual_actions cur_states : List ℕ)
    (tb_rule : Option String) (tb_param : Option (List ℕ))
    (h0 : tb_rule ≠ none) (h1 : tb_rule ≠ some "goodness")
    (h2 : tb_rule ≠ some "naive") (h3 : tb_rule ≠ some "priority")
    (h4 : tb_rule ≠ some "goodness-priority") :
    FTVAPolicy_get_actions choose N act_frac coin virtual_states virtual_actions
        cur_states tb_rule tb_param
      = (Except.error PyErr.notImplementedError, virtual_states) := by
  simp only [FTVAPolicy_get_actions]
  rw [if_neg (by simp [h0, h1]), if_neg h2, if_neg h3, if_neg h4]

theorem C5_unknown_tb_rule_witness :
    (some "random" ≠ (none : Option String)) ∧ (some "random" ≠ some "goodness") ∧
    FTVAPolicy_get_actions takeChoose 1 (1/2) 0 [0] [1] [0] (some "random") none
      = (Except.error PyErr.notImplementedError, [0]) :=
  ⟨by simp, by simp,
    C5_unknown_tb_rule takeChoose 1 0 (1/2) [0] [1] [0] (some "random") none
      (by simp) (by simp) (by simp) (by simp) (by simp)⟩

/-! ## FTVAPolicy.virtual_step and the coupling trace -/

/-- FTVAPolicy.virtual_step, per arm: an arm agrees this step when its
previous real state equals its virtual state and its real action equals its
virtual action; the virtual state of an agreeing arm is set to the arm's new
real state, and the virtual state of every other arm is resampled from the
transition kernel at its (virtual state, virtual action) — the oracle list
draws holds these kernel samples, draws[i] being the sample drawn from
P(virtual_states[i], virtual_actions[i], .). -/
def virtual_step (prev_states cur_states actions virtual_actions
    virtual_states draws : List ℕ) : List ℕ :=
  (List.range virtual_states.length).map (fun i =>
    if prev_states.getD i 0 = virtual_states.getD i 0
        ∧ actions.getD i 0 = virtual_actions.getD i 0 then
      cur_states.getD i 0
    else
      draws.getD i 0)

/-- One simulation step of the coupled system, as seen by virtual_step: the
previous and new real states, the real and virtual actions, and the kernel
samples used for the non-agreeing arms. -/
structure StepData where
  prev_states : List ℕ
  cur_states : List ℕ
  actions : List ℕ
  virtual_actions : List ℕ
  draws : List ℕ

/-- Iterated virtual_step along a step sequence, starting from the virtual
states v0. -/
def virtualTrace (steps : ℕ → StepData) (v0 : List ℕ) : ℕ → List ℕ
  | 0 => v0
  | t + 1 =>
    virtual_step (steps t).prev_states (steps t).cur_states (steps t).actions
      (steps t).virtual_actions (virtualTrace steps v0 t) (steps t).draws

theorem getD_map_range (f : ℕ → ℕ) (n i : ℕ) (hi : i < n) :
    ((List.range n).map f).getD i 0 = f i := by
  rw [List.getD_eq_getElem _ _ (by simpa using hi)]
  simp

theorem virtual_step_length (prev cur acts vacts virt draws : List ℕ) :
    (virtual_step prev cur acts vacts virt draws).length = virt.length := by
  simp [virtual_step]

theorem virtualTrace_length (steps : ℕ → StepData) (v0 : List ℕ) :
    ∀ t, (virtualTrace steps v0 t).length = v0.length := by
  intro t
  induction t with
  | zero => rfl
  | succ t ih => rw [virtualTrace, virtual_step_length, ih]

/-- C2: the FTVA coupling is absorbing. First part: in virtual_step, an arm
whose previous real state equals its virtual state and whose real action
equals its virtual action gets the arm's new real state as its virtual state.
Second part: along any step sequence, if arm i agrees at step 0 (previous
real state equals initial virtual state) and its real and virtual actions
agree at every step, then after every step the virtual state of arm i equals
its current real state. -/
theorem C2_ftva_coupling_absorbing :
    (∀ (prev cur acts vacts virt draws : List ℕ) (i : ℕ), i < virt.length →
      prev.getD i 0 = virt.getD i 0 → acts.getD i 0 = vacts.getD i 0 →
      (virtual_step prev cur acts vacts virt draws).getD i 0 = cur.getD i 0)
    ∧ (∀ (steps : ℕ → StepData) (v0 : List ℕ) (i t : ℕ), i < v0.length →
      (steps 0).prev_states.getD i 0 = v0.getD i 0 →
      (∀ u, (steps u).actions.getD i 0 = (steps u).virtual_actions.getD i 0) →
      (∀ u, (steps (u + 1)).prev_states.getD i 0 = (steps u).cur_states.getD i 0) →
      (virtualTrace steps v0 (t + 1)).getD i 0 = (steps t).cur_states.getD i 0) := by
  have hstep : ∀ (prev cur acts vacts virt draws : List ℕ) (i : ℕ), i < virt.length →
      prev.getD i 0 = virt.getD i 0 → acts.getD i 0 = vacts.getD i 0 →
      (virtual_step prev cur acts vacts virt draws).getD i 0 = cur.getD i 0 := by
    intro prev cur acts vacts virt draws i hi hp ha
    rw [virtual_step, getD_map_range _ _ _ hi, if_pos ⟨hp, ha⟩]
  refine ⟨hstep, ?_⟩
  intro steps v0 i t hi h0 hacts hchain
  induction t with
  | zero =>
    exact hstep _ _ _ _ _ _ i hi h0 (hacts 0)
  | succ t ih =>
    rw [virtualTrace]
    refine hstep _ _ _ _ _ _ i ?_ ?_ (hacts (t + 1))
    · rw [virtualTrace_length]
      exact hi
    · rw [hchain t, ih]

theorem C2_ftva_coupling_absorbing_witness :
    (∀ u : ℕ, ((fun _ => StepData.mk [2] [2] [1] [1] [0]) u).actions.getD 0 0
      = ((fun _ => StepData.mk [2] [2] [1] [1] [0]) u).virtual_actions.getD 0 0) ∧
    (virtualTrace (fun _ => StepData.mk [2] [2] [1] [1] [0]) [2] 3).getD 0 0 = 2 :=
  ⟨fun _ => rfl,
    C2_ftva_coupling_absorbing.2 (fun _ => StepData.mk [2] [2] [1] [1] [0]) [2] 0 2
      (by decide) rfl (fun _ => rfl) (fun _ => rfl)⟩

/-! ## SingleArmAnalyzer -/

/-- The dualvar field of SingleArmAnalyzer: initially the reusable cvxpy
Parameter object (param, carrying its currently assigned value, if any);
solve_LP_Priority with a fixed dual overwrites the field with a plain number
(const), which has no value attribute. -/
inductive DualVar where
  | param : Option ℚ → DualVar
  | const : ℚ → DualVar
deriving DecidableEq

/-- Whether the dualvar field holds a plain number instead of the parameter
object (assigning .value to it is then an AttributeError). -/
def DualVar.isConst : DualVar → Bool
  | DualVar.param _ => false
  | DualVar.const _ => true

/-- The fields of SingleArmAnalyzer read by solve_LP_Priority and
solve_whittles_policy: the state-space size S, the S-by-2 reward tensor, the
activation fraction and the dualvar field. -/
structure AnalyzerState where
  sspa_size : ℕ
  reward_tensor : List (List ℚ)
  act_frac : ℚ
  dualvar : DualVar

/-- Numbers below EPS = 1e-7 are regarded as zero. -/
def EPS : ℚ := 1 / 10000000

/-- DUALSTEP = 0.05, the discretization step of the subsidy grid. -/
def DUALSTEP : ℚ := 1 / 20

/-- np.min of a nonempty array (the empty case is never reached on a valid
model; 0 is a dummy value). -/
def npMin (l : List ℚ) : ℚ :=
  match l with
  | [] => 0
  | x :: xs => xs.foldr min x

/-- np.max of a nonempty array (the empty case is never reached on a valid
model; 0 is a dummy value). -/
def npMax (l : List ℚ) : ℚ :=
  match l with
  | [] => 0
  | x :: xs => xs.foldr max x

/-- All entries of the reward tensor, flattened. -/
def rewardValues (a : AnalyzerState) : List ℚ :=
  concatMap (fun row => row) a.reward_tensor

/-- MINSUBSIDY = -(max_reward - min_reward) - DUALSTEP. -/
def MINSUBSIDY (a : AnalyzerState) : ℚ :=
  -(npMax (rewardValues a) - npMin (rewardValues a)) - DUALSTEP

/-- MAXSUBSIDY = (max_reward - min_reward) + DUALSTEP. -/
def MAXSUBSIDY (a : AnalyzerState) : ℚ :=
  (npMax (rewardValues a) - npMin (rewardValues a)) + DUALSTEP

/-- np.arange(lo, hi, step) for a positive step: the ceil((hi-lo)/step)
values lo, lo+step, lo+2*step, ... . -/
def arangeQ (lo hi step : ℚ) : List ℚ :=
  (List.range (Int.toNat ⌈(hi - lo) / step⌉)).map (fun (k : ℕ) => lo + (k : ℚ) * step)

/-- The subsidy grid np.arange(MINSUBSIDY, MAXSUBSIDY, DUALSTEP) swept by
solve_whittles_policy. -/
def subsidyValues (a : AnalyzerState) : List ℚ :=
  arangeQ (MINSUBSIDY a) (MAXSUBSIDY a) DUALSTEP

/-- Entry (s, i) of the passive table: whether the opaque solver's occupation
measure at subsidy grid position i records state s as passive, that is
y.value[s, 0] > EPS and y.value[s, 1] < EPS. The oracle yval i s act is
y.value[s, act] after solving the relaxed LP at grid position i. -/
def passiveTable (yval : ℕ → ℕ → ℕ → ℚ) (s i : ℕ) : Bool :=
  decide (EPS < yval i s 0) && decide (yval i s 1 < EPS)

/-- The np.where(passive_table[state, :])[0][0] lookup: the smallest grid
position at which the state is recorded passive; indexing an empty result is
an IndexError. -/
def firstPassive (a : AnalyzerState) (yval : ℕ → ℕ → ℕ → ℚ) (s : ℕ) :
    Except PyErr ℕ :=
  match (List.range (subsidyValues a).length).find? (fun i => passiveTable yval s i) with
  | none => Except.error PyErr.indexError
  | some w => Except.ok w

/-- The approximate Whittle index of a state: its threshold position on the
subsidy grid (0 as a dummy for a state that is never passive). -/
def stateThreshold (a : AnalyzerState) (yval : ℕ → ℕ → ℕ → ℚ) (s : ℕ) : ℕ :=
  (((List.range (subsidyValues a).length).find?
    (fun i => passiveTable yval s i))).getD 0

/-- The python for-loop over the states 0..S-1 computing each state's
threshold, stopping at the first state that raises. -/
def mapMExcept (f : ℕ → Except PyErr ℕ) : List ℕ → Except PyErr (List ℕ)
  | [] => Except.ok []
  | a :: l =>
    match f a with
    | Except.error e => Except.error e
    | Except.ok b =>
      match mapMExcept f l with
      | Except.error e => Except.error e
      | Except.ok bs => Except.ok (b :: bs)

/-- The wi2state dictionary of solve_whittles_policy, flattened into the
priority list: the distinct threshold values sorted descending (python
sorted(keys, reverse=True)), each bucket listing its states in increasing
order (the insertion order of the ascending state loop); tied states share a
bucket (the source prints a warning and keeps the smaller state first). -/
def priorityFromWi (wi : ℕ → ℕ) (S : ℕ) : List ℕ :=
  concatMap (fun k => (List.range S).filter (fun s => wi s = k))
    (List.insertionSort (· ≥ ·) (((List.range S).map wi).dedup))

/-- solve_whittles_policy. The opaque solver's occupation measures over the
subsidy grid enter through the oracle yval. The subsidy loop assigns
self.dualvar.value, an AttributeError when dualvar was overwritten by a plain
number and the grid is nonempty; a state that is never passive on the grid is
an IndexError (np.where(...)[0][0] on an empty match); with an empty state
space the loop variable indexable is unbound at the return statement, a
NameError. On success, returns the priority list and the indexability flag —
the flag is the value left by the last loop iteration, so it only reflects
state S-1 (whether state S-1 stays passive on the whole grid from its
threshold on). -/
def solve_whittles_policy (a : AnalyzerState) (yval : ℕ → ℕ → ℕ → ℚ) :
    Except PyErr (List ℕ × Bool) :=
  if (subsidyValues a).length ≠ 0 ∧ a.dualvar.isConst then
    Except.error PyErr.attributeError
  else
    match mapMExcept (firstPassive a yval) (List.range a.sspa_size) with
    | Except.error e => Except.error e
    | Except.ok wis =>
      if a.sspa_size = 0 then Except.error PyErr.nameError
      else
        Except.ok (priorityFromWi (fun s => wis.getD s 0) a.sspa_size,
          ((List.range (subsidyValues a).length).drop (wis.getD (a.sspa_size - 1) 0)).all
            (fun i => passiveTable yval (a.sspa_size - 1) i))

/-- solve_LP_Priority. The opaque solver's dual values are oracles:
avg_reward is the dual of the normalization constraint, value_dual s the dual
of the flow-balance constraint of state s (negated to give the value
function), budget_dual the dual of the budget constraint (the subsidy when no
fixed dual is supplied). With a fixed dual, the budget constraint is dropped,
the supplied value is the subsidy, and the dualvar field is overwritten by
the plain number. The priority list sorts the states by descending action gap
Q(s,1) - Q(s,0) of the Q function reconstructed from the duals (np.argsort
ascending, then np.flip); the pair also returns the analyzer state after the
call. The priority-list computation is factored out as lpPriorityList, taking
the subsidy actually used (budget_dual when no fixed dual is supplied, the
fixed dual otherwise). -/
def lpPriorityList (a : AnalyzerState) (trans_tensor : ℕ → ℕ → ℕ → ℚ)
    (opt_subsidy avg_reward : ℚ) (value_dual : ℕ → ℚ) : List ℕ :=
  let value_func := fun s => -(value_dual s)
  let q_func := fun i j => (a.reward_tensor.getD i []).getD j 0
      + opt_subsidy * (if j = 0 then 1 else 0) - avg_reward
      + ((List.range a.sspa_size).map (fun s2 => trans_tensor i j s2 * value_func s2)).sum
  (List.insertionSort
      (fun i1 i2 => q_func i1 1 - q_func i1 0 ≤ q_func i2 1 - q_func i2 0)
      (List.range a.sspa_size)).reverse

def solve_LP_Priority (a : AnalyzerState) (trans_tensor : ℕ → ℕ → ℕ → ℚ)
    (fixed_dual : Option ℚ) (avg_reward : ℚ) (value_dual : ℕ → ℚ)
    (budget_dual : ℚ) : List ℕ × AnalyzerState :=
  match fixed_dual with
  | none => (lpPriorityList a trans_tensor budget_dual avg_reward value_dual, a)
  | some lam =>
      (lpPriorityList a trans_tensor lam avg_reward value_dual,
        AnalyzerState.mk a.sspa_size a.reward_tensor a.act_frac (DualVar.const lam))

theorem lpPriorityList_perm (a : AnalyzerState) (trans_tensor : ℕ → ℕ → ℕ → ℚ)
    (opt_subsidy avg_reward : ℚ) (value_dual : ℕ → ℚ) :
    (lpPriorityList a trans_tensor opt_subsidy avg_reward value_dual).Perm
      (List.range a.sspa_size) :=
  (List.reverse_perm _).trans (List.perm_insertionSort _ _)

theorem foldr_min_le_foldr_max (x : ℚ) :
    ∀ xs : List ℚ, xs.foldr min x ≤ xs.foldr max x := by
  intro xs
  induction xs with
  | nil => exact le_refl x
  | cons a xs ih =>
    calc (a :: xs).foldr min x ≤ xs.foldr min x := min_le_right _ _
      _ ≤ xs.foldr max x := ih
      _ ≤ (a :: xs).foldr max x := le_max_right _ _

theorem npMin_le_npMax (l : List ℚ) : npMin l ≤ npMax l := by
  match l with
  | [] => exact le_refl 0
  | x :: xs => exact foldr_min_le_foldr_max x xs

/-- The subsidy grid is never empty: its span is at least 2*DUALSTEP. -/
theorem subsidyValues_length_pos (a : AnalyzerState) :
    1 ≤ (subsidyValues a).length := by
  rw [subsidyValues, arangeQ, List.length_map, List.length_range]
  have hgap : (0 : ℚ) < MAXSUBSIDY a - MINSUBSIDY a := by
    rw [MAXSUBSIDY, MINSUBSIDY, DUALSTEP]
    have := npMin_le_npMax (rewardValues a)
    linarith
  have hstep : (0 : ℚ) < DUALSTEP := by
    rw [DUALSTEP]
    norm_num
  have hceil : (1 : ℤ) ≤ ⌈(MAXSUBSIDY a - MINSUBSIDY a) / DUALSTEP⌉ :=
    Int.ceil_pos.mpr (div_pos hgap hstep)
  omega

theorem mem_concatMap {f : α → List β} {x : β} :
    ∀ {l : List α}, x ∈ concatMap f l ↔ ∃ a ∈ l, x ∈ f a := by
  intro l
  induction l with
  | nil => simp [concatMap]
  | cons a l ih =>
    rw [concatMap, List.mem_append, ih]
    simp

theorem mapMExcept_cons_ok {f : ℕ → Except PyErr ℕ} {a b : ℕ} {l ws : List ℕ}
    (ha : f a = Except.ok b) (hl : mapMExcept f l = Except.ok ws) :
    mapMExcept f (a :: l) = Except.ok (b :: ws) := by
  rw [mapMExcept, ha, hl]

theorem mapMExcept_error (f : ℕ → Except PyErr ℕ) (e : PyErr)
    (honly : ∀ x, f x = Except.error e ∨ ∃ b, f x = Except.ok b) :
    ∀ l : List ℕ, (∃ x ∈ l, f x = Except.error e) →
      mapMExcept f l = Except.error e := by
  intro l
  induction l with
  | nil => rintro ⟨x, hx, _⟩; cases hx
  | cons a l ih =>
    rintro ⟨x, hx, hfx⟩
    rcases honly a with ha | ⟨b, hb⟩
    · rw [mapMExcept, ha]
    · rw [mapMExcept, hb]
      have hxl : x ∈ l := by
        rcases List.mem_cons.mp hx with rfl | hxl
        · rw [hfx] at hb
          cases hb
        · exact hxl
      rw [ih ⟨x, hxl, hfx⟩]

theorem mapMExcept_ok_of_forall (f : ℕ → Except PyErr ℕ) :
    ∀ l : List ℕ, (∀ x ∈ l, ∃ b, f x = Except.ok b) →
      ∃ ws : List ℕ, mapMExcept f l = Except.ok ws := by
  intro l
  induction l with
  | nil => intro _; exact ⟨[], rfl⟩
  | cons a l ih =>
    intro h
    obtain ⟨b, hb⟩ := h a (List.mem_cons_self a l)
    obtain ⟨ws, hws⟩ := ih (fun x hx => h x (List.mem_cons_of_mem a hx))
    exact ⟨b :: ws, mapMExcept_cons_ok hb hws⟩

theorem mapMExcept_ok_getD {f : ℕ → Except PyErr ℕ} :
    ∀ {l ws : List ℕ}, mapMExcept f l = Except.ok ws →
      ∀ i, i < l.length → f (l.getD i 0) = Except.ok (ws.getD i 0) := by
  intro l
  induction l with
  | nil => intro ws _ i hi; cases hi
  | cons a l ih =>
    intro ws h i hi
    rw [mapMExcept] at h
    cases hfa : f a with
    | error e => rw [hfa] at h; cases h
    | ok b =>
      rw [hfa] at h
      cases hml : mapMExcept f l with
      | error e => rw [hml] at h; cases h
      | ok bs =>
        rw [hml] at h
        cases h
        match i with
        | 0 => simpa using hfa
        | i + 1 =>
          rw [List.getD_cons_succ, List.getD_cons_succ]
          exact ih hml i (Nat.lt_of_succ_lt_succ hi)

theorem firstPassive_cases (a : AnalyzerState) (yval : ℕ → ℕ → ℕ → ℚ) (s : ℕ) :
    firstPassive a yval s = Except.error PyErr.indexError
      ∨ ∃ w, firstPassive a yval s = Except.ok w := by
  rw [firstPassive]
  cases h : (List.range (subsidyValues a).length).find? (fun i => passiveTable yval s i) with
  | none => exact Or.inl rfl
  | some w => exact Or.inr ⟨w, rfl⟩

theorem firstPassive_error_of_all_false (a : AnalyzerState) (yval : ℕ → ℕ → ℕ → ℚ)
    (s : ℕ) (h : ∀ i, i < (subsidyValues a).length → passiveTable yval s i = false) :
    firstPassive a yval s = Except.error PyErr.indexError := by
  rw [firstPassive]
  have hnone : (List.range (subsidyValues a).length).find?
      (fun i => passiveTable yval s i) = none := by
    rw [List.find?_eq_none]
    intro i hi
    rw [h i (List.mem_range.mp hi)]
    simp
  rw [hnone]

theorem firstPassive_ok_of_exists (a : AnalyzerState) (yval : ℕ → ℕ → ℕ → ℚ)
    (s : ℕ) (h : ∃ i, i < (subsidyValues a).length ∧ passiveTable yval s i = true) :
    ∃ w, firstPassive a yval s = Except.ok w := by
  obtain ⟨i, hi, hp⟩ := h
  have hsome : ((List.range (subsidyValues a).length).find?
      (fun i => passiveTable yval s i)).isSome = true :=
    List.find?_isSome.mpr ⟨i, List.mem_range.mpr hi, hp⟩
  cases hf : (List.range (subsidyValues a).length).find?
      (fun i => passiveTable yval s i) with
  | none => rw [hf] at hsome; cases hsome
  | some w =>
    refine ⟨w, ?_⟩
    rw [firstPassive, hf]

theorem firstPassive_ok_threshold {a : AnalyzerState} {yval : ℕ → ℕ → ℕ → ℚ}
    {s w : ℕ} (h : firstPassive a yval s = Except.ok w) :
    stateThreshold a yval s = w := by
  rw [firstPassive] at h
  rw [stateThreshold]
  cases hf : (List.range (subsidyValues a).length).find?
      (fun i => passiveTable yval s i) with
  | none => rw [hf] at h; cases h
  | some u =>
    rw [hf] at h
    cases h
    rfl

theorem count_concatMap_buckets (wi : ℕ → ℕ) (S x : ℕ) :
    ∀ keys : List ℕ, keys.Nodup →
      (concatMap (fun k => (List.range S).filter (fun s => wi s = k)) keys).count x
        = if x ∈ List.range S ∧ wi x ∈ keys then 1 else 0 := by
  intro keys
  induction keys with
  | nil =>
    intro _
    simp [concatMap]
  | cons k ks ih =>
    intro hnd
    rw [concatMap, List.count_append, ih (List.Nodup.of_cons hnd)]
    by_cases hwx : wi x = k
    · have hk : k ∉ ks := (List.nodup_cons.mp hnd).1
      by_cases hxr : x ∈ List.range S
      · have hmem : x ∈ (List.range S).filter (fun s => wi s = k) :=
          List.mem_filter.mpr ⟨hxr, by simpa using hwx⟩
        rw [List.count_eq_one_of_mem (List.Nodup.filter _ (List.nodup_range S)) hmem]
        simp [hxr, hwx, hk]
      · have hnot : x ∉ (List.range S).filter (fun s => wi s = k) :=
          fun hmem => hxr (List.mem_of_mem_filter hmem)
        rw [List.count_eq_zero.mpr hnot]
        simp [hxr]
    · have hnot : x ∉ (List.range S).filter (fun s => wi s = k) := by
        intro hmem
        exact hwx (by simpa using (List.mem_filter.mp hmem).2)
      rw [List.count_eq_zero.mpr hnot]
      simp [hwx]

/-- The priority list built from the wi2state buckets is a permutation of the
states 0..S-1. -/
theorem priorityFromWi_perm (wi : ℕ → ℕ) (S : ℕ) :
    (priorityFromWi wi S).Perm (List.range S) := by
  rw [List.perm_iff_count]
  intro x
  have hkeysnd : (List.insertionSort (· ≥ ·) (((List.range S).map wi).dedup)).Nodup :=
    ((List.perm_insertionSort (· ≥ ·) _).nodup_iff).mpr (List.nodup_dedup _)
  rw [priorityFromWi, count_concatMap_buckets wi S x _ hkeysnd]
  by_cases hxr : x ∈ List.range S
  · have hcov : wi x ∈ List.insertionSort (· ≥ ·) (((List.range S).map wi).dedup) := by
      rw [(List.perm_insertionSort (· ≥ ·) _).mem_iff, List.mem_dedup]
      exact List.mem_map.mpr ⟨x, hxr, rfl⟩
    rw [if_pos ⟨hxr, hcov⟩, List.count_eq_one_of_mem (List.nodup_range S) hxr]
  · rw [if_neg (fun h => hxr h.1), Eq.comm, List.count_eq_zero]
    exact hxr

theorem pairwise_concatMap (R : ℕ → ℕ → Prop) (f : ℕ → List ℕ) :
    ∀ keys : List ℕ, (∀ k ∈ keys, (f k).Pairwise R) →
      List.Pairwise (fun k1 k2 => ∀ x ∈ f k1, ∀ y ∈ f k2, R x y) keys →
      (concatMap f keys).Pairwise R := by
  intro keys
  induction keys with
  | nil => intro _ _; exact List.Pairwise.nil
  | cons k ks ih =>
    intro hin hcross
    rw [concatMap, List.pairwise_append]
    refine ⟨hin k (List.mem_cons_self k ks),
      ih (fun u hu => hin u (List.mem_cons_of_mem k hu)) (List.Pairwise.of_cons hcross), ?_⟩
    intro x hx y hy
    obtain ⟨u, hu, hyu⟩ := mem_concatMap.mp hy
    exact (List.rel_of_pairwise_cons hcross hu) x hx y hyu

/-- The priority list built from the wi2state buckets is ordered by strictly
descending threshold, ties ordered by increasing state number. -/
theorem priorityFromWi_pairwise (wi : ℕ → ℕ) (S : ℕ) :
    (priorityFromWi wi S).Pairwise
      (fun s t => wi t < wi s ∨ (wi s = wi t ∧ s < t)) := by
  rw [priorityFromWi]
  refine pairwise_concatMap _ _ _ ?_ ?_
  · intro k _
    refine List.Pairwise.imp_of_mem ?_
      (List.Pairwise.filter (fun s => wi s = k) (List.pairwise_lt_range S))
    intro s t hs ht hst
    have hws : wi s = k := by simpa using (List.mem_filter.mp hs).2
    have hwt : wi t = k := by simpa using (List.mem_filter.mp ht).2
    exact Or.inr ⟨hws.trans hwt.symm, hst⟩
  · have hsorted : List.Pairwise (fun k1 k2 : ℕ => k1 ≥ k2)
        (List.insertionSort (· ≥ ·) (((List.range S).map wi).dedup)) :=
      List.sorted_insertionSort (· ≥ ·) _
    have hnd : (List.insertionSort (· ≥ ·) (((List.range S).map wi).dedup)).Nodup :=
      ((List.perm_insertionSort (· ≥ ·) _).nodup_iff).mpr (List.nodup_dedup _)
    have hstrict : List.Pairwise (fun k1 k2 : ℕ => k2 < k1)
        (List.insertionSort (· ≥ ·) (((List.range S).map wi).dedup)) := by
      refine (hsorted.and hnd).imp ?_
      intro k1 k2 h
      omega
    refine hstrict.imp ?_
    intro k1 k2 hlt x hx y hy
    have hwx : wi x = k1 := by simpa using (List.mem_filter.mp hx).2
    have hwy : wi y = k2 := by simpa using (List.mem_filter.mp hy).2
    exact Or.inl (by omega)

/-- Success shape of solve_whittles_policy: on a nonempty state space with the
parameter object intact and every state passive somewhere on the grid, the
call succeeds, the priority list is built from the per-state thresholds, and
the flag is the monotonicity check of the last state. -/
theorem solve_whittles_ok (a : AnalyzerState) (yval : ℕ → ℕ → ℕ → ℚ)
    (hS : 1 ≤ a.sspa_size) (v : Option ℚ) (hdv : a.dualvar = DualVar.param v)
    (hrows : ∀ s, s < a.sspa_size →
      ∃ i, i < (subsidyValues a).length ∧ passiveTable yval s i = true) :
    ∃ ws : List ℕ,
      mapMExcept (firstPassive a yval) (List.range a.sspa_size) = Except.ok ws
      ∧ solve_whittles_policy a yval
          = Except.ok (priorityFromWi (fun s => ws.getD s 0) a.sspa_size,
              ((List.range (subsidyValues a).length).drop
                (ws.getD (a.sspa_size - 1) 0)).all
                (fun i => passiveTable yval (a.sspa_size - 1) i))
      ∧ ∀ s, s < a.sspa_size → ws.getD s 0 = stateThreshold a yval s := by
  obtain ⟨ws, hws⟩ := mapMExcept_ok_of_forall (firstPassive a yval)
    (List.range a.sspa_size)
    (fun s hsr => firstPassive_ok_of_exists a yval s (hrows s (List.mem_range.mp hsr)))
  refine ⟨ws, hws, ?_, ?_⟩
  · rw [solve_whittles_policy, if_neg (by simp [hdv, DualVar.isConst]), hws]
    have h0 : ¬ a.sspa_size = 0 := by omega
    simp only [h0, ite_false]
  · intro s hs
    have hgd := mapMExcept_ok_getD hws s (by simpa using hs)
    rw [List.getD_eq_getElem _ _ (by simpa using hs), List.getElem_range] at hgd
    exact (firstPassive_ok_threshold hgd).symm

/-- C6: the priority list of solve_LP_Priority is a permutation of the states
0..S-1, and whenever solve_whittles_policy succeeds (valid model: nonempty
state space, dualvar still the parameter object, every state passive
somewhere on the grid) its priority list is also a permutation of 0..S-1. -/
theorem C6_priority_lists_are_permutations (a : AnalyzerState)
    (trans_tensor : ℕ → ℕ → ℕ → ℚ) (avg_reward : ℚ) (value_dual : ℕ → ℚ)
    (budget_dual : ℚ) (yval : ℕ → ℕ → ℕ → ℚ)
    (hS : 1 ≤ a.sspa_size) (v : Option ℚ) (hdv : a.dualvar = DualVar.param v)
    (hrows : ∀ s, s < a.sspa_size →
      ∃ i, i < (subsidyValues a).length ∧ passiveTable yval s i = true) :
    ((solve_LP_Priority a trans_tensor none avg_reward value_dual budget_dual).1).Perm
        (List.range a.sspa_size)
    ∧ ∃ pl b, solve_whittles_policy a yval = Except.ok (pl, b)
        ∧ pl.Perm (List.range a.sspa_size) := by
  constructor
  · exact lpPriorityList_perm a trans_tensor budget_dual avg_reward value_dual
  · obtain ⟨ws, _, heq, _⟩ := solve_whittles_ok a yval hS v hdv hrows
    exact ⟨_, _, heq, priorityFromWi_perm (fun s => ws.getD s 0) a.sspa_size⟩

/-- C7: in a successful solve_whittles_policy call, the returned priority
list is ordered by strictly descending approximate Whittle index (threshold
grid position), and states sharing a threshold appear consecutively in
increasing state order. -/
theorem C7_whittles_tie_ordering (a : AnalyzerState) (yval : ℕ → ℕ → ℕ → ℚ)
    (hS : 1 ≤ a.sspa_size) (v : Option ℚ) (hdv : a.dualvar = DualVar.param v)
    (hrows : ∀ s, s < a.sspa_size →
      ∃ i, i < (subsidyValues a).length ∧ passiveTable yval s i = true) :
    ∃ pl b, solve_whittles_policy a yval = Except.ok (pl, b)
      ∧ pl.Pairwise (fun s t => stateThreshold a yval t < stateThreshold a yval s
          ∨ (stateThreshold a yval s = stateThreshold a yval t ∧ s < t)) := by
  obtain ⟨ws, _, heq, hthr⟩ := solve_whittles_ok a yval hS v hdv hrows
  refine ⟨_, _, heq, ?_⟩
  have hperm := priorityFromWi_perm (fun s => ws.getD s 0) a.sspa_size
  refine (priorityFromWi_pairwise (fun s => ws.getD s 0) a.sspa_size).imp_of_mem ?_
  intro s t hs ht h
  have hsS : s < a.sspa_size := List.mem_range.mp (hperm.mem_iff.mp hs)
  have htS : t < a.sspa_size := List.mem_range.mp (hperm.mem_iff.mp ht)
  rw [hthr s hsS, hthr t htS] at h
  exact h

/-- C9: when some state is never recorded passive on the subsidy grid (and the
dualvar field is still the parameter object, so the sweep itself runs), the
unguarded np.where(...)[0][0] lookup in solve_whittles_policy raises
IndexError instead of returning a priority list. -/
theorem C9_missing_threshold_is_index_error (a : AnalyzerState)
    (yval : ℕ → ℕ → ℕ → ℚ) (v : Option ℚ) (hdv : a.dualvar = DualVar.param v)
    (hbad : ∃ s, s < a.sspa_size ∧ ∀ i, i < (subsidyValues a).length →
      passiveTable yval s i = false) :
    solve_whittles_policy a yval = Except.error PyErr.indexError := by
  obtain ⟨s, hs, hall⟩ := hbad
  rw [solve_whittles_policy, if_neg (by simp [hdv, DualVar.isConst]),
    mapMExcept_error (firstPassive a yval) PyErr.indexError
      (firstPassive_cases a yval) (List.range a.sspa_size)
      ⟨s, List.mem_range.mpr hs, firstPassive_error_of_all_false a yval s hall⟩]

/-- C10: solve_LP_Priority with a fixed dual overwrites the dualvar field —
initially the reusable parameter object — with the plain value, and a
subsequent solve_whittles_policy call on the resulting analyzer raises
AttributeError at the dualvar.value assignment of the first grid iteration
instead of sweeping the subsidy grid. -/
theorem C10_fixed_dual_breaks_whittles (a : AnalyzerState)
    (trans_tensor : ℕ → ℕ → ℕ → ℚ) (avg_reward : ℚ) (value_dual : ℕ → ℚ)
    (budget_dual lam : ℚ) (yval : ℕ → ℕ → ℕ → ℚ) (v : Option ℚ)
    (hdv : a.dualvar = DualVar.param v) :
    ((solve_LP_Priority a trans_tensor (some lam) avg_reward value_dual
        budget_dual).2).dualvar = DualVar.const lam
    ∧ solve_whittles_policy
        (solve_LP_Priority a trans_tensor (some lam) avg_reward value_dual
          budget_dual).2 yval
      = Except.error PyErr.attributeError := by
  have h2 : (solve_LP_Priority a trans_tensor (some lam) avg_reward value_dual
      budget_dual).2
      = AnalyzerState.mk a.sspa_size a.reward_tensor a.act_frac (DualVar.const lam) :=
    rfl
  refine ⟨by rw [h2], ?_⟩
  have hcond : (subsidyValues (AnalyzerState.mk a.sspa_size a.reward_tensor
          a.act_frac (DualVar.const lam))).length ≠ 0
      ∧ (AnalyzerState.mk a.sspa_size a.reward_tensor a.act_frac
          (DualVar.const lam)).dualvar.isConst = true := by
    constructor
    · have := subsidyValues_length_pos (AnalyzerState.mk a.sspa_size a.reward_tensor
        a.act_frac (DualVar.const lam))
      omega
    · rfl
  rw [h2, solve_whittles_policy, if_pos hcond]

/-! ## Concrete instances for the Whittle sweep -/

/-- A concrete 2-state analyzer (all rewards zero, act_frac 1/2, dualvar the
fresh parameter object); its subsidy grid has exactly 2 points. -/
def wiExampleAnalyzer : AnalyzerState :=
  AnalyzerState.mk 2 [[0, 0], [0, 0]] (1/2) (DualVar.param none)

/-- Opaque-solver occupation measures over the 2-point grid: state 0 is
passive at grid position 0 and active at grid position 1 (so its passivity is
not monotone from its threshold on — an indexability violation), while state
1 is passive at both grid positions. -/
def wiExampleY : ℕ → ℕ → ℕ → ℚ := fun i s act =>
  if s = 0 ∧ i = 1 then (if act = 0 then 0 else 1) else (if act = 0 then 1 else 0)

theorem wiExample_passive :
    passiveTable wiExampleY 0 0 = true ∧ passiveTable wiExampleY 0 1 = false
    ∧ passiveTable wiExampleY 1 0 = true ∧ passiveTable wiExampleY 1 1 = true := by
  have e1 : (0 : ℚ) < EPS := by rw [EPS]; norm_num
  have e2 : EPS < (1 : ℚ) := by rw [EPS]; norm_num
  have e3 : ¬ (EPS < (0 : ℚ)) := by rw [EPS]; norm_num
  refine ⟨?_, ?_, ?_, ?_⟩
  · rw [passiveTable, show wiExampleY 0 0 0 = 1 from rfl,
      show wiExampleY 0 0 1 = 0 from rfl, decide_eq_true e2, decide_eq_true e1]
    rfl
  · rw [passiveTable, show wiExampleY 1 0 0 = 0 from rfl, decide_eq_false e3]
    rfl
  · rw [passiveTable, show wiExampleY 0 1 0 = 1 from rfl,
      show wiExampleY 0 1 1 = 0 from rfl, decide_eq_true e2, decide_eq_true e1]
    rfl
  · rw [passiveTable, show wiExampleY 1 1 0 = 1 from rfl,
      show wiExampleY 1 1 1 = 0 from rfl, decide_eq_true e2, decide_eq_true e1]
    rfl

theorem wiExample_subsidy_len : (subsidyValues wiExampleAnalyzer).length = 2 := by
  have hmax : npMax (rewardValues wiExampleAnalyzer) = 0 := by
    show ([0, 0, 0] : List ℚ).foldr max 0 = 0
    simp
  have hmin : npMin (rewardValues wiExampleAnalyzer) = 0 := by
    show ([0, 0, 0] : List ℚ).foldr min 0 = 0
    simp
  rw [subsidyValues, arangeQ, List.length_map, List.length_range,
    MAXSUBSIDY, MINSUBSIDY, hmax, hmin, DUALSTEP]
  norm_num
  rfl

theorem wiExample_firstPassive_0 :
    firstPassive wiExampleAnalyzer wiExampleY 0 = Except.ok 0 := by
  rw [firstPassive, wiExample_subsidy_len, show List.range 2 = [0, 1] from rfl,
    List.find?_cons_of_pos _ (by exact wiExample_passive.1)]

theorem wiExample_firstPassive_1 :
    firstPassive wiExampleAnalyzer wiExampleY 1 = Except.ok 0 := by
  rw [firstPassive, wiExample_subsidy_len, show List.range 2 = [0, 1] from rfl,
    List.find?_cons_of_pos _ (by exact wiExample_passive.2.2.1)]

theorem wiExample_rows : ∀ s, s < wiExampleAnalyzer.sspa_size →
    ∃ i, i < (subsidyValues wiExampleAnalyzer).length
      ∧ passiveTable wiExampleY s i = true := by
  intro s hs
  have hs2 : s < 2 := hs
  refine ⟨0, by rw [wiExample_subsidy_len]; norm_num, ?_⟩
  interval_cases s
  · exact wiExample_passive.1
  · exact wiExample_passive.2.2.1

theorem wiExample_mapM :
    mapMExcept (firstPassive wiExampleAnalyzer wiExampleY) [0, 1]
      = Except.ok [0, 0] :=
  mapMExcept_cons_ok wiExample_firstPassive_0
    (mapMExcept_cons_ok wiExample_firstPassive_1 rfl)

/-- C1 (the claim fails on the code): the indexability flag returned by
solve_whittles_policy is the loop-local value of the last iteration, so it
only reflects state S-1. On this concrete instance state 0 violates
indexability — its threshold is grid position 0 (the state is passive there)
but it is active again at grid position 1 of the 2-point grid — yet the call
returns the flag true because state 1, the last state, is indexable. The
claim (and the spec) require the flag to be false whenever any state violates
monotonicity. -/
theorem C1_indexability_flag_last_state_only :
    solve_whittles_policy wiExampleAnalyzer wiExampleY = Except.ok ([0, 1], true)
    ∧ (subsidyValues wiExampleAnalyzer).length = 2
    ∧ stateThreshold wiExampleAnalyzer wiExampleY 0 = 0
    ∧ passiveTable wiExampleY 0 0 = true
    ∧ passiveTable wiExampleY 0 1 = false := by
  obtain ⟨p1, p2, p3, p4⟩ := wiExample_passive
  refine ⟨?_, wiExample_subsidy_len,
    firstPassive_ok_threshold wiExample_firstPassive_0, p1, p2⟩
  obtain ⟨ws, hws, heq, _⟩ := solve_whittles_ok wiExampleAnalyzer wiExampleY
    (by decide) none rfl wiExample_rows
  rw [show List.range wiExampleAnalyzer.sspa_size = [0, 1] from rfl,
    wiExample_mapM] at hws
  have hws0 : ws = [0, 0] := (Except.ok.inj hws).symm
  subst hws0
  rw [heq, Except.ok.injEq, Prod.mk.injEq]
  constructor
  · decide
  · rw [wiExample_subsidy_len,
      show wiExampleAnalyzer.sspa_size - 1 = 1 from rfl,
      show (([0, 0] : List ℕ).getD 1 0) = 0 from rfl,
      show (List.range 2).drop 0 = [0, 1] from rfl]
    simp [p3, p4]

theorem C6_priority_lists_are_permutations_witness :
    (1 ≤ wiExampleAnalyzer.sspa_size)
    ∧ (((solve_LP_Priority wiExampleAnalyzer (fun _ _ _ => 0) none 0 (fun _ => 0)
          0).1).Perm (List.range wiExampleAnalyzer.sspa_size)
      ∧ ∃ pl b, solve_whittles_policy wiExampleAnalyzer wiExampleY
          = Except.ok (pl, b) ∧ pl.Perm (List.range wiExampleAnalyzer.sspa_size)) :=
  ⟨by decide,
    C6_priority_lists_are_permutations wiExampleAnalyzer (fun _ _ _ => 0) 0
      (fun _ => 0) 0 wiExampleY (by decide) none rfl wiExample_rows⟩

theorem C7_whittles_tie_ordering_witness :
    (1 ≤ wiExampleAnalyzer.sspa_size)
    ∧ ∃ pl b, solve_whittles_policy wiExampleAnalyzer wiExampleY
        = Except.ok (pl, b)
      ∧ pl.Pairwise (fun s t =>
          stateThreshold wiExampleAnalyzer wiExampleY t
            < stateThreshold wiExampleAnalyzer wiExampleY s
          ∨ (stateThreshold wiExampleAnalyzer wiExampleY s
              = stateThreshold wiExampleAnalyzer wiExampleY t ∧ s < t)) :=
  ⟨by decide,
    C7_whittles_tie_ordering wiExampleAnalyzer wiExampleY (by decide) none rfl
      wiExample_rows⟩

/-- A concrete 1-state analyzer with the parameter object intact. -/
def badExampleAnalyzer : AnalyzerState :=
  AnalyzerState.mk 1 [[0, 0]] (1/2) (DualVar.param none)

/-- An opaque-solver output that never records any state as passive. -/
def zeroY : ℕ → ℕ → ℕ → ℚ := fun _ _ _ => 0

theorem zeroY_passive (s i : ℕ) : passiveTable zeroY s i = false := by
  rw [passiveTable, show zeroY i s 0 = 0 from rfl,
    decide_eq_false (by rw [EPS]; norm_num : ¬ (EPS < (0 : ℚ)))]
  rfl

theorem C9_missing_threshold_is_index_error_witness :
    badExampleAnalyzer.dualvar = DualVar.param none
    ∧ solve_whittles_policy badExampleAnalyzer zeroY
        = Except.error PyErr.indexError :=
  ⟨rfl,
    C9_missing_threshold_is_index_error badExampleAnalyzer zeroY none rfl
      ⟨0, by decide, fun i _ => zeroY_passive 0 i⟩⟩

theorem C10_fixed_dual_breaks_whittles_witness :
    badExampleAnalyzer.dualvar = DualVar.param none
    ∧ (((solve_LP_Priority badExampleAnalyzer (fun _ _ _ => 0) (some 3) 0
          (fun _ => 0) 0).2).dualvar = DualVar.const 3
      ∧ solve_whittles_policy
          (solve_LP_Priority badExampleAnalyzer (fun _ _ _ => 0) (some 3) 0
            (fun _ => 0) 0).2 zeroY
        = Except.error PyErr.attributeError) :=
  ⟨rfl,
    C10_fixed_dual_breaks_whittles badExampleAnalyzer (fun _ _ _ => 0) 0
      (fun _ => 0) 0 3 zeroY none rfl⟩

/-! ## Array helpers: states_from_state_fracs and sa_list_to_freq -/

/-- numpy slice assignment states[start:stop] = v, walking the list with the
running position i. -/
def setSlice (start stop v : ℕ) : ℕ → List ℕ → List ℕ
  | _, [] => []
  | i, x :: xs =>
    (if start ≤ i ∧ i < stop then v else x) :: setSlice start stop v (i + 1) xs

/-- The slice boundary int(N * np.sum(state_fracs[0:s])) used by
states_from_state_fracs. -/
def sliceBound (N : ℕ) (f : List ℚ) (s : ℕ) : ℕ :=
  (pyInt ((N : ℚ) * (f.take s).sum)).toNat

/-- The loop of states_from_state_fracs after processing the states 0..k-1:
start from np.zeros(N) and, for each state s in order, assign
states[sliceBound s : sliceBound (s+1)] = s. -/
def buildStates (N : ℕ) (f : List ℚ) (k : ℕ) : List ℕ :=
  (List.range k).foldl
    (fun states s => setSlice (sliceBound N f s) (sliceBound N f (s + 1)) s 0 states)
    (List.replicate N 0)

/-- states_from_state_fracs: the slice-assignment loop run over all states. -/
def states_from_state_fracs (sspa_size N : ℕ) (state_fracs : List ℚ) : List ℕ :=
  buildStates N state_fracs sspa_size

/-- sa_list_to_freq: assert equal lengths, tally each arm's (state, action)
pair into an S-by-2 matrix (an out-of-range state or action is an
IndexError), and divide by the number of arms. -/
def sa_list_to_freq (sspa_size : ℕ) (states actions : List ℕ) :
    Except PyErr (ℕ → ℕ → ℚ) :=
  if states.length = actions.length then
    if (∀ s ∈ states, s < sspa_size) ∧ (∀ x ∈ actions, x < 2) then
      Except.ok (fun s act =>
        (((states.zip actions).count (s, act) : ℕ) : ℚ) / (states.length : ℚ))
    else Except.error PyErr.indexError
  else Except.error PyErr.assertionError

theorem takeSum_nonneg (f : List ℚ) (hf : ∀ x ∈ f, 0 ≤ x) (s : ℕ) :
    0 ≤ (f.take s).sum :=
  List.sum_nonneg (fun x hx => hf x ((List.take_sublist s f).mem hx))

theorem takeSum_mono (f : List ℚ) (hf : ∀ x ∈ f, 0 ≤ x) {s1 s2 : ℕ}
    (h : s1 ≤ s2) : (f.take s1).sum ≤ (f.take s2).sum := by
  have hdecomp : List.take s2 f = List.take s1 f ++ List.take (s2 - s1) (List.drop s1 f) := by
    rw [← List.take_add]
    congr 1
    omega
  rw [hdecomp, List.sum_append]
  have hpos : 0 ≤ (List.take (s2 - s1) (List.drop s1 f)).sum :=
    List.sum_nonneg (fun x hx =>
      hf x (((List.take_sublist _ _).trans (List.drop_sublist _ _)).mem hx))
  linarith

theorem sliceBound_mono (N : ℕ) (f : List ℚ) (hf : ∀ x ∈ f, 0 ≤ x) {s1 s2 : ℕ}
    (h : s1 ≤ s2) : sliceBound N f s1 ≤ sliceBound N f s2 := by
  have h1 : (0 : ℚ) ≤ (N : ℚ) * (f.take s1).sum :=
    mul_nonneg (Nat.cast_nonneg N) (takeSum_nonneg f hf s1)
  have h2 : (0 : ℚ) ≤ (N : ℚ) * (f.take s2).sum :=
    mul_nonneg (Nat.cast_nonneg N) (takeSum_nonneg f hf s2)
  rw [sliceBound, sliceBound, pyInt_toNat_of_nonneg h1, pyInt_toNat_of_nonneg h2]
  exact Nat.floor_mono
    (mul_le_mul_of_nonneg_left (takeSum_mono f hf h) (Nat.cast_nonneg N))

theorem sliceBound_zero (N : ℕ) (f : List ℚ) : sliceBound N f 0 = 0 := by
  rw [sliceBound]
  simp [pyInt]

theorem sliceBound_of_length_le (N : ℕ) (f : List ℚ) (hfs : f.sum = 1) {s : ℕ}
    (hs : f.length ≤ s) : sliceBound N f s = N := by
  rw [sliceBound, List.take_of_length_le hs, hfs, mul_one,
    pyInt_toNat_of_nonneg (Nat.cast_nonneg N), Nat.floor_natCast]

theorem sliceBound_le (N : ℕ) (f : List ℚ) (hf : ∀ x ∈ f, 0 ≤ x)
    (hfs : f.sum = 1) (s : ℕ) : sliceBound N f s ≤ N := by
  by_cases hs : s ≤ f.length
  · calc sliceBound N f s ≤ sliceBound N f f.length := sliceBound_mono N f hf hs
      _ = N := sliceBound_of_length_le N f hfs (le_refl _)
  · rw [sliceBound_of_length_le N f hfs (by omega)]

theorem setSlice_length (start stop v : ℕ) :
    ∀ (l : List ℕ) (i : ℕ), (setSlice start stop v i l).length = l.length := by
  intro l
  induction l with
  | nil => intro i; rfl
  | cons x xs ih =>
    intro i
    rw [setSlice]
    simp [ih]

theorem setSlice_getD (start stop v : ℕ) :
    ∀ (l : List ℕ) (i j : ℕ), j < l.length →
      (setSlice start stop v i l).getD j 0
        = if start ≤ i + j ∧ i + j < stop then v else l.getD j 0 := by
  intro l
  induction l with
  | nil => intro i j hj; cases hj
  | cons x xs ih =>
    intro i j hj
    match j with
    | 0 =>
      rw [setSlice]
      simp
    | j + 1 =>
      rw [setSlice, List.getD_cons_succ, List.getD_cons_succ,
        ih (i + 1) j (by simpa using Nat.lt_of_succ_lt_succ hj)]
      have heq : i + 1 + j = i + (j + 1) := by omega
      rw [heq]

theorem buildStates_succ (N : ℕ) (f : List ℚ) (k : ℕ) :
    buildStates N f (k + 1)
      = setSlice (sliceBound N f k) (sliceBound N f (k + 1)) k 0 (buildStates N f k) := by
  rw [buildStates, List.range_succ, List.foldl_append]
  rfl

theorem buildStates_length (N : ℕ) (f : List ℚ) :
    ∀ k, (buildStates N f k).length = N := by
  intro k
  induction k with
  | zero => simp [buildStates]
  | succ k ih => rw [buildStates_succ, setSlice_length, ih]

theorem replicate_getD_zero (N j : ℕ) : (List.replicate N (0 : ℕ)).getD j 0 = 0 := by
  by_cases h : j < N
  · rw [List.getD_eq_getElem _ _ (by simpa using h), List.getElem_replicate]
  · rw [List.getD_eq_default _ _ (by simpa using h)]

theorem buildStates_getD_ge (N : ℕ) (f : List ℚ) (hf : ∀ x ∈ f, 0 ≤ x) :
    ∀ k j, sliceBound N f k ≤ j → (buildStates N f k).getD j 0 = 0 := by
  intro k
  induction k with
  | zero =>
    intro j _
    exact replicate_getD_zero N j
  | succ k ih =>
    intro j hj
    have hj2 : sliceBound N f (k + 1) ≤ j := hj
    by_cases hjN : j < N
    · rw [buildStates_succ,
        setSlice_getD _ _ _ _ 0 j (by rw [buildStates_length]; exact hjN)]
      have hmono : sliceBound N f k ≤ sliceBound N f (k + 1) :=
        sliceBound_mono N f hf (by omega)
      rw [if_neg (by omega)]
      exact ih j (by omega)
    · rw [List.getD_eq_default _ _ (by rw [buildStates_length]; omega)]

theorem buildStates_getD_lt (N : ℕ) (f : List ℚ) (hf : ∀ x ∈ f, 0 ≤ x)
    (hfs : f.sum = 1) :
    ∀ k s j, s < k → sliceBound N f s ≤ j → j < sliceBound N f (s + 1) →
      (buildStates N f k).getD j 0 = s := by
  intro k
  induction k with
  | zero => intro s j hs _ _; cases hs
  | succ k ih =>
    intro s j hs h1 h2
    have hjN : j < N := lt_of_lt_of_le h2 (sliceBound_le N f hf hfs (s + 1))
    rw [buildStates_succ,
      setSlice_getD _ _ _ _ 0 j (by rw [buildStates_length]; exact hjN)]
    by_cases hsk : s = k
    · subst hsk
      rw [if_pos (by omega)]
    · have hsk2 : s < k := by omega
      have hmono := sliceBound_mono N f hf (show s + 1 ≤ k by omega)
      rw [if_neg (by omega)]
      exact ih s j hsk2 h1 h2

theorem exists_slice_of_lt (t : ℕ → ℕ) :
    ∀ m j, t 0 ≤ j → j < t m → ∃ s, s < m ∧ t s ≤ j ∧ j < t (s + 1) := by
  intro m
  induction m with
  | zero => intro j h0 hm; omega
  | succ m ih =>
    intro j h0 hm
    by_cases hjm : j < t m
    · obtain ⟨s, hs, hs1, hs2⟩ := ih j h0 hjm
      exact ⟨s, by omega, hs1, hs2⟩
    · exact ⟨m, by omega, by omega, hm⟩

theorem states_getD_eq_iff (S N : ℕ) (f : List ℚ) (hfl : f.length = S)
    (hfn : ∀ x ∈ f, 0 ≤ x) (hfs : f.sum = 1) {j : ℕ} (hj : j < N) (v : ℕ) :
    (states_from_state_fracs S N f).getD j 0 = v
      ↔ sliceBound N f v ≤ j ∧ j < sliceBound N f (v + 1) := by
  have htop : sliceBound N f S = N := sliceBound_of_length_le N f hfs (by omega)
  have h0 : sliceBound N f 0 = 0 := sliceBound_zero N f
  constructor
  · intro hv
    obtain ⟨s, hsS, hs1, hs2⟩ :=
      exists_slice_of_lt (sliceBound N f) S j (by omega) (by omega)
    have hchar := buildStates_getD_lt N f hfn hfs S s j hsS hs1 hs2
    rw [states_from_state_fracs] at hv
    rw [hchar] at hv
    subst hv
    exact ⟨hs1, hs2⟩
  · rintro ⟨h1, h2⟩
    have hvS : v < S := by
      by_contra hge
      rw [sliceBound_of_length_le N f hfs (by omega)] at h1
      omega
    exact buildStates_getD_lt N f hfn hfs S v j hvS h1 h2

theorem states_entries_lt (S N : ℕ) (f : List ℚ) (hfl : f.length = S)
    (hfn : ∀ x ∈ f, 0 ≤ x) (hfs : f.sum = 1) :
    ∀ x ∈ states_from_state_fracs S N f, x < S := by
  intro x hx
  obtain ⟨j, hj, hjx⟩ := List.mem_iff_getElem.mp hx
  have hjN : j < N := by
    rw [states_from_state_fracs, buildStates_length] at hj
    exact hj
  have hgd : (states_from_state_fracs S N f).getD j 0 = x := by
    rw [List.getD_eq_getElem _ _ hj, hjx]
  obtain ⟨h1, h2⟩ := (states_getD_eq_iff S N f hfl hfn hfs hjN x).mp hgd
  by_contra hge
  rw [sliceBound_of_length_le N f hfs (by omega)] at h1
  omega

theorem list_eq_map_getD (l : List ℕ) :
    l = (List.range l.length).map (fun j => l.getD j 0) := by
  refine List.ext_getElem (by simp) ?_
  intro n h1 h2
  rw [List.getElem_map, List.getElem_range, List.getD_eq_getElem _ _ h1]

theorem countP_range_ge (a : ℕ) :
    ∀ N, List.countP (fun j => decide (a ≤ j)) (List.range N) = N - a := by
  intro N
  induction N with
  | zero => simp
  | succ N ih =>
    rw [List.range_succ, List.countP_append, ih]
    by_cases h : a ≤ N
    · simp [h]
      omega
    · simp [h]
      omega

theorem countP_range_interval (a : ℕ) :
    ∀ (b N : ℕ), b ≤ N →
      List.countP (fun j => decide (a ≤ j ∧ j < b)) (List.range N) = b - a := by
  intro b N
  induction N with
  | zero =>
    intro hb
    have hb0 : b = 0 := by omega
    subst hb0
    simp
  | succ N ih =>
    intro hb
    rw [List.range_succ, List.countP_append]
    by_cases hbN : b ≤ N
    · rw [ih hbN]
      have hno : ¬(a ≤ N ∧ N < b) := by omega
      simp [hno]
    · have hbeq : b = N + 1 := by omega
      subst hbeq
      have hcong : List.countP (fun j => decide (a ≤ j ∧ j < N + 1)) (List.range N)
          = List.countP (fun j => decide (a ≤ j)) (List.range N) := by
        refine List.countP_congr ?_
        intro j hj
        have := List.mem_range.mp hj
        simp only [decide_eq_true_eq]
        omega
      rw [hcong, countP_range_ge]
      by_cases h : a ≤ N
      · simp [h]
        omega
      · simp [h]
        omega

theorem states_count (S N : ℕ) (f : List ℚ) (hfl : f.length = S)
    (hfn : ∀ x ∈ f, 0 ≤ x) (hfs : f.sum = 1) (s : ℕ) (hsS : s < S) :
    (states_from_state_fracs S N f).count s
      = sliceBound N f (s + 1) - sliceBound N f s := by
  have hlen : (states_from_state_fracs S N f).length = N := buildStates_length N f S
  have hmap : states_from_state_fracs S N f
      = (List.range N).map (fun j => (states_from_state_fracs S N f).getD j 0) := by
    have := list_eq_map_getD (states_from_state_fracs S N f)
    rwa [hlen] at this
  rw [List.count_eq_countP]
  conv_lhs => rw [hmap]
  rw [List.countP_map]
  have hcongr : List.countP
      ((fun x => x == s) ∘ fun j => (states_from_state_fracs S N f).getD j 0)
      (List.range N)
      = List.countP (fun j => decide (sliceBound N f s ≤ j ∧ j < sliceBound N f (s + 1)))
        (List.range N) := by
    refine List.countP_congr ?_
    intro j hj
    simp only [Function.comp_apply, beq_iff_eq, decide_eq_true_eq]
    exact states_getD_eq_iff S N f hfl hfn hfs (List.mem_range.mp hj) s
  rw [hcongr, countP_range_interval _ _ _ (sliceBound_le N f hfn hfs (s + 1))]

theorem zip_count_sum (v : ℕ) :
    ∀ (st ac : List ℕ), st.length = ac.length → (∀ x ∈ ac, x < 2) →
      (st.zip ac).count (v, 0) + (st.zip ac).count (v, 1) = st.count v := by
  intro st
  induction st with
  | nil =>
    intro ac _ _
    simp
  | cons x st ih =>
    intro ac hlen hac
    match ac with
    | [] => cases hlen
    | b :: ac =>
      rw [List.zip_cons_cons, List.count_cons, List.count_cons, List.count_cons]
      have hb : b = 0 ∨ b = 1 := by
        have := hac b (List.mem_cons_self b ac)
        omega
      have hrec := ih ac (by simpa using hlen)
        (fun y hy => hac y (List.mem_cons_of_mem b hy))
      rcases hb with rfl | rfl <;> by_cases hxv : x = v <;>
        simp [hxv, Prod.ext_iff] <;> omega

/-- C8: the empirical state frequencies of states_from_state_fracs(S, N, f)
(computed through sa_list_to_freq and summed over the two actions) reproduce
f within 1/N per state: each state's arm count differs from N*f[s] by at most
1, a constant independent of N. -/
theorem C8_state_fracs_round_trip (S N : ℕ) (f : List ℚ) (actions : List ℕ)
    (hfl : f.length = S) (hfn : ∀ x ∈ f, 0 ≤ x) (hfs : f.sum = 1) (hN : 0 < N)
    (hal : actions.length = N) (ha2 : ∀ x ∈ actions, x < 2) :
    ∃ F : ℕ → ℕ → ℚ,
      sa_list_to_freq S (states_from_state_fracs S N f) actions = Except.ok F
      ∧ ∀ s, s < S → |F s 0 + F s 1 - f.getD s 0| ≤ 1 / (N : ℚ) := by
  have hlen : (states_from_state_fracs S N f).length = N := buildStates_length N f S
  have hg1 : (states_from_state_fracs S N f).length = actions.length := by omega
  have hg2 : (∀ s ∈ states_from_state_fracs S N f, s < S) ∧ (∀ x ∈ actions, x < 2) :=
    ⟨states_entries_lt S N f hfl hfn hfs, ha2⟩
  refine ⟨_, by rw [sa_list_to_freq, if_pos hg1, if_pos hg2], ?_⟩
  intro s hsS
  have hNpos : (0 : ℚ) < (N : ℚ) := by exact_mod_cast hN
  have hzip := zip_count_sum s (states_from_state_fracs S N f) actions hg1 ha2
  have hcnt := states_count S N f hfl hfn hfs s hsS
  have hAB : sliceBound N f s ≤ sliceBound N f (s + 1) :=
    sliceBound_mono N f hfn (Nat.le_succ s)
  have hsum : ((((states_from_state_fracs S N f).zip actions).count (s, 0) : ℕ) : ℚ)
        / ((states_from_state_fracs S N f).length : ℚ)
      + ((((states_from_state_fracs S N f).zip actions).count (s, 1) : ℕ) : ℚ)
        / ((states_from_state_fracs S N f).length : ℚ)
      = ((sliceBound N f (s + 1) - sliceBound N f s : ℕ) : ℚ) / (N : ℚ) := by
    rw [div_add_div_same, hlen, ← Nat.cast_add, hzip, hcnt]
  rw [hsum]
  have hP : (f.take (s + 1)).sum = (f.take s).sum + f.getD s 0 := by
    have hsf : s < f.length := by omega
    rw [List.sum_take_succ f s hsf, List.getD_eq_getElem f 0 hsf]
  have hq1 : (0 : ℚ) ≤ (N : ℚ) * (f.take s).sum :=
    mul_nonneg (Nat.cast_nonneg N) (takeSum_nonneg f hfn s)
  have hq2 : (0 : ℚ) ≤ (N : ℚ) * (f.take (s + 1)).sum :=
    mul_nonneg (Nat.cast_nonneg N) (takeSum_nonneg f hfn (s + 1))
  have hBle : ((sliceBound N f s : ℕ) : ℚ) ≤ (N : ℚ) * (f.take s).sum := by
    rw [sliceBound, pyInt_toNat_of_nonneg hq1]
    exact Nat.floor_le hq1
  have hBgt : (N : ℚ) * (f.take s).sum < ((sliceBound N f s : ℕ) : ℚ) + 1 := by
    rw [sliceBound, pyInt_toNat_of_nonneg hq1]
    exact Nat.lt_floor_add_one _
  have hAle : ((sliceBound N f (s + 1) : ℕ) : ℚ) ≤ (N : ℚ) * (f.take (s + 1)).sum := by
    rw [sliceBound, pyInt_toNat_of_nonneg hq2]
    exact Nat.floor_le hq2
  have hAgt : (N : ℚ) * (f.take (s + 1)).sum < ((sliceBound N f (s + 1) : ℕ) : ℚ) + 1 := by
    rw [sliceBound, pyInt_toNat_of_nonneg hq2]
    exact Nat.lt_floor_add_one _
  have hkey : |((sliceBound N f (s + 1) - sliceBound N f s : ℕ) : ℚ)
      - (N : ℚ) * f.getD s 0| ≤ 1 := by
    rw [Nat.cast_sub hAB, abs_le]
    constructor
    · nlinarith [hP, hBle, hBgt, hAle, hAgt]
    · nlinarith [hP, hBle, hBgt, hAle, hAgt]
  have hrw : ((sliceBound N f (s + 1) - sliceBound N f s : ℕ) : ℚ) / (N : ℚ)
      - f.getD s 0
      = (((sliceBound N f (s + 1) - sliceBound N f s : ℕ) : ℚ)
        - (N : ℚ) * f.getD s 0) / (N : ℚ) := by
    field_simp
  rw [hrw, abs_div, abs_of_pos hNpos]
  exact div_le_div_of_nonneg_right hkey (le_of_lt hNpos)

theorem C8_state_fracs_round_trip_witness :
    (([(1 : ℚ)/4, 3/4]).sum = 1) ∧ (0 < 4) ∧
    ∃ F : ℕ → ℕ → ℚ,
      sa_list_to_freq 2 (states_from_state_fracs 2 4 [(1 : ℚ)/4, 3/4]) [0, 1, 0, 1]
        = Except.ok F
      ∧ ∀ s, s < 2 → |F s 0 + F s 1 - ([(1 : ℚ)/4, 3/4]).getD s 0|
          ≤ 1 / ((4 : ℕ) : ℚ) :=
  ⟨by norm_num, by norm_num,
    C8_state_fracs_round_trip 2 4 [(1 : ℚ)/4, 3/4] [0, 1, 0, 1] rfl
      (by intro x hx; simp at hx; rcases hx with rfl | rfl <;> norm_num)
      (by norm_num) (by norm_num) rfl (by decide)⟩

end DiscreteRB
